import Mathlib

/-!
# Verification of the pnpm link manager

A shallow embedding of `src/apps/rush-lib/src/cli/logic/pnpm/PnpmLinkManager.ts`
(the Flattened link strategy of the monorepo dependency-linking engine), together
with the parts of its collaborators (`BasePackage`, `BaseLinkManager`,
`RushConstants`) that are referenced by that file but whose sources are not part
of this repository snapshot; those are modelled from the specification.

Filesystem paths are modelled as lists of path segments (`path.join` is list
append).  The filesystem itself is an association list from paths to entries;
`existsSync p` is "the path has an entry" and `lstatSync(p).isSymbolicLink()`
is "the entry is a symlink".  JSON file contents (used only by the diagnostic
`DEBUG` branch) are carried in a separate association list from paths to parsed
`package.json` values.
-/

set_option autoImplicit false

namespace PnpmLink

/-- A filesystem path, as the list of its segments.  `path.join` appends. -/
abbrev FsPath := List String

/-- A filesystem entry: a real directory/file, or a symbolic link to a target path. -/
inductive FsEntry where
  | realDir : FsEntry
  | symlink (target : FsPath) : FsEntry
deriving DecidableEq, Repr, Inhabited

/-- The filesystem: an association list from paths to entries (first match wins). -/
abbrev FileSystem := List (FsPath × FsEntry)

/-- Look a path up in the filesystem (first matching entry). -/
def fsLookup : FileSystem → FsPath → Option FsEntry
  | [], _ => none
  | (q, e) :: rest, p => if q = p then some e else fsLookup rest p

/-- `fsx.existsSync`: the path has an entry. -/
def existsSync (fs : FileSystem) (p : FsPath) : Bool :=
  (fsLookup fs p).isSome

/-- `fsx.lstatSync(p).isSymbolicLink()`: the entry at `p` is a symbolic link. -/
def isSymbolicLink (fs : FileSystem) (p : FsPath) : Bool :=
  match fsLookup fs p with
  | some (.symlink _) => true
  | _ => false

/-- Write an entry at a path: any previous entry at the path is removed first,
then the new entry is added (mirrors remove-then-create symlink creation). -/
def fsInsert (fs : FileSystem) (p : FsPath) (e : FsEntry) : FileSystem :=
  (p, e) :: fs.filter (fun kv => kv.1 ≠ p)

/-- Apply a sequence of writes to the filesystem, in order. -/
def applyWrites (fs : FileSystem) (ws : List (FsPath × FsEntry)) : FileSystem :=
  ws.foldl (fun acc kv => fsInsert acc kv.1 kv.2) fs

/-- Follow exactly one symlink hop from `p`, if `p` is a symlink. -/
def resolveOneHop (fs : FileSystem) (p : FsPath) : Option FsPath :=
  match fsLookup fs p with
  | some (.symlink t) => some t
  | _ => none

/-- Parsed contents of `package.json` files that the engine may read
(`IPackageJson`): name, version, and the two dependency maps.  A JSON map is an
association list whose keys are, as in JavaScript objects, distinct and kept in
insertion order; `Object.keys` is the list of first components. -/
structure IPackageJson where
  name : String
  version : String
  dependencies : List (String × String) := []
  rushDependencies : List (String × String) := []
deriving DecidableEq, Repr

/-- Parsed JSON file contents available on disk, for the diagnostic read. -/
abbrev JsonContents := List (FsPath × IPackageJson)

/-- Look up a parsed JSON file by path. -/
def jsonLookup : JsonContents → FsPath → Option IPackageJson
  | [], _ => none
  | (q, j) :: rest, p => if q = p then some j else jsonLookup rest p

/-! ## Constants

`RushConstants` is referenced by the source but its file is not in this
snapshot; the values below are the ones the source's own path comments and
string literals exhibit (`'projects'`, `'node_modules'`, `@rush-temp`,
`package.json`). -/

/-- `RushConstants.nodeModulesFolderName`. -/
def nodeModulesFolderName : String := "node_modules"

/-- `RushConstants.rushTempProjectsFolderName`. -/
def rushTempProjectsFolderName : String := "projects"

/-- `RushConstants.rushTempNpmScope`. -/
def rushTempNpmScope : String := "@rush-temp"

/-- `RushConstants.packageJsonFilename`. -/
def packageJsonFilename : String := "package.json"

/-- special flag for debugging, will print extra diagnostic information,
but comes with performance cost (`const DEBUG: boolean = false`). -/
def DEBUG : Bool := false

/-- The characters after the first slash, if any. -/
def afterSlash : List Char → Option (List Char)
  | [] => none
  | '/' :: rest => some rest
  | _ :: rest => afterSlash rest

/-- `Utilities.parseScopedPackageName(...).name`: for a scoped package name
(`@scope/name`), the part after the first slash; an unscoped name is returned
unchanged. -/
def parseScopedPackageName (packageName : String) : String :=
  match packageName.data with
  | '@' :: _ =>
    match afterSlash packageName.data with
    | some rest => String.mk rest
    | none => packageName
  | _ => packageName

/-! ## strict-uri-encode

`uriEncode` percent-encodes every character outside `[A-Za-z0-9._~-]`
(the behaviour of the `strict-uri-encode` package on ASCII input, which is the
only input the engine feeds it). -/

/-- Upper-case hexadecimal digit for `n < 16`. -/
def hexDigit (n : Nat) : Char :=
  if n < 10 then Char.ofNat (48 + n) else Char.ofNat (55 + n)

/-- Characters left unencoded by `strict-uri-encode`. -/
def isUnreservedChar (c : Char) : Bool :=
  c.isAlphanum || c = '-' || c = '_' || c = '.' || c = '~'

/-- Percent-encode a single character. -/
def percentEncodeChar (c : Char) : String :=
  String.mk ['%', hexDigit (c.toNat / 16 % 16), hexDigit (c.toNat % 16)]

/-- `uriEncode` from `strict-uri-encode`. -/
def uriEncode (s : String) : String :=
  String.join (s.data.map (fun c =>
    if isUnreservedChar c then String.mk [c] else percentEncodeChar c))

/-! ## Project configuration -/

/-- `RushConfigurationProject`: a local project known to the engine.  Its
`packageName` is, as in the source configuration class, the `name` of its
`package.json`.  `tempPackageJson` holds the parsed contents of the project's
staging manifest `common/temp/projects/<name>/package.json`, which the source
reads from disk via `BasePackage.createVirtualTempPackage`. -/
structure RushConfigurationProject where
  packageJson : IPackageJson
  projectFolder : FsPath
  tempProjectName : String
  tempPackageJson : IPackageJson
deriving DecidableEq, Repr

/-- `project.packageName`, a getter for `packageJson.name`. -/
def RushConfigurationProject.packageName (p : RushConfigurationProject) : String :=
  p.packageJson.name

/-- The slice of `RushConfiguration` the link manager uses. -/
structure RushConfiguration where
  projects : List RushConfigurationProject
  commonTempFolder : FsPath
deriving DecidableEq, Repr

/-- `rushConfiguration.getProjectByName`. -/
def RushConfiguration.getProjectByName (cfg : RushConfiguration) (name : String) :
    Option RushConfigurationProject :=
  cfg.projects.find? (fun p => p.packageName = name)

/-- The link manifest `IRushLinkJson.localLinks`: a JSON map from project name
to the ordered list of its linked local dependency names (association list,
insertion order, distinct keys). -/
abbrev IRushLinkJson := List (String × List String)

/-- Look up the `localLinks` entry for a project name. -/
def getLocalLinks : IRushLinkJson → String → Option (List String)
  | [], _ => none
  | (n, l) :: rest, name => if n = name then some l else getLocalLinks rest name

/-- Record one local link: `let localLinks = json.localLinks[name]; if
(!localLinks) { localLinks = []; json.localLinks[name] = localLinks; }
localLinks.push(dep)` — the entry is created on first use, and the dependency
name is appended at the end of the existing entry otherwise. -/
def pushLocalLink : IRushLinkJson → String → String → IRushLinkJson
  | [], name, dep => [(name, [dep])]
  | (n, l) :: rest, name, dep =>
    if n = name then (n, l ++ [dep]) :: rest
    else (n, l) :: pushLocalLink rest name dep

/-! ## The dependency node model (`BasePackage`) -/

/-- `BasePackage`: an in-memory dependency tree node.  The class itself is not
in this snapshot; fields are modelled from the specification's DependencyNode
(§3): name, optional version, the folder this node occupies, an optional
symlink target, and the ordered children. -/
inductive BasePackage where
  | mk (name : String) (version : Option String) (folderPath : FsPath)
      (symlinkTargetFolderPath : Option FsPath) (children : List BasePackage)

/-- The node's name. -/
def BasePackage.name : BasePackage → String
  | .mk n _ _ _ _ => n

/-- The node's recorded version, if any. -/
def BasePackage.version : BasePackage → Option String
  | .mk _ v _ _ _ => v

/-- The folder this node occupies. -/
def BasePackage.folderPath : BasePackage → FsPath
  | .mk _ _ fp _ _ => fp

/-- The node's symlink target, if this node is to become a symlink. -/
def BasePackage.symlinkTargetFolderPath : BasePackage → Option FsPath
  | .mk _ _ _ st _ => st

/-- The node's ordered children. -/
def BasePackage.children : BasePackage → List BasePackage
  | .mk _ _ _ _ cs => cs

/-- `BasePackage.createLinkedPackage(name, version, folderPath)`: a fresh node
with no symlink target and no children. -/
def createLinkedPackage (name : String) (version : Option String)
    (folderPath : FsPath) : BasePackage :=
  .mk name version folderPath none []

/-- Set `symlinkTargetFolderPath` on a node. -/
def BasePackage.withSymlinkTarget (pkg : BasePackage) (target : FsPath) : BasePackage :=
  match pkg with
  | .mk n v fp _ cs => .mk n v fp (some target) cs

/-- `localPackage.children.push(child)`: append a child directly, with no
duplicate check (the internal-dependency loop of `_linkProject` does this). -/
def BasePackage.pushChild (pkg : BasePackage) (child : BasePackage) : BasePackage :=
  match pkg with
  | .mk n v fp st cs => .mk n v fp st (cs ++ [child])

/-! ## Errors -/

/-- The errors `_linkProject` can throw.  The source throws `Error` with a
message; each message shape becomes one constructor carrying the data the
message interpolates. -/
inductive LinkError where
  /-- "Cannot find dependency `dependencyName` for `packageName` in rush configuration". -/
  | configurationError (dependencyName : String) (packageName : String)
  /-- "Cannot find installed dependency `dependencyName` in `pathToLocalInstallation`". -/
  | missingInstalledDependency (dependencyName : String) (pathToLocalInstallation : FsPath)
  /-- "Dependency `dependencyName` is not a symlink in `pathToLocalInstallation`". -/
  | dependencyNotASymlink (dependencyName : String) (pathToLocalInstallation : FsPath)
  /-- Modelled from the spec: `addChild` fails fast on a duplicate child name,
  with an error identifying the parent and the duplicate name (§4.1). -/
  | duplicateChild (parentName : String) (childName : String)
deriving DecidableEq, Repr

/-- Modelled from the spec: `BasePackage.addChild` (§4.1) — "appends to
`children`, asserting `child.name` is not already present among existing
children … fails fast with a descriptive error identifying the parent and the
duplicate name".  `BasePackage`'s source is not in this snapshot. -/
def BasePackage.addChild (parent : BasePackage) (child : BasePackage) :
    Except LinkError BasePackage :=
  if child.name ∈ parent.children.map BasePackage.name then
    .error (.duplicateChild parent.name child.name)
  else
    .ok (parent.pushChild child)

/-! ## `_linkProject` -/

/-- The keys of a project's staging-manifest `rushDependencies` map
(`Object.keys(commonPackage.packageJson!.rushDependencies || {})`). -/
def rushDependencyNames (project : RushConfigurationProject) : List String :=
  project.tempPackageJson.rushDependencies.map Prod.fst

/-- The keys of a project's staging-manifest `dependencies` map
(`Object.keys(commonPackage.packageJson!.dependencies || {})`). -/
def regularDependencyNames (project : RushConfigurationProject) : List String :=
  project.tempPackageJson.dependencies.map Prod.fst

/-- Body of the internal-dependency loop of `_linkProject` (one
`dependencyName` of `rushDependencies`): resolve the name against the known
local projects; on a match, record the link in the manifest and push a child
node whose symlink target is the matched project's real folder; otherwise
throw the configuration error. -/
def linkRushDependency (cfg : RushConfiguration) (project : RushConfigurationProject)
    (localPackage : BasePackage) (rushLinkJson : IRushLinkJson) (dependencyName : String) :
    Except LinkError (BasePackage × IRushLinkJson) :=
  match cfg.getProjectByName dependencyName with
  | some matchedRushPackage =>
    let matchedVersion : String := matchedRushPackage.packageJson.version
    let rushLinkJson' := pushLocalLink rushLinkJson localPackage.name dependencyName
    let newLocalFolderPath : FsPath :=
      localPackage.folderPath ++ [nodeModulesFolderName, dependencyName]
    let newLocalPackage : BasePackage :=
      (createLinkedPackage dependencyName (some matchedVersion) newLocalFolderPath).withSymlinkTarget
        matchedRushPackage.projectFolder
    .ok (localPackage.pushChild newLocalPackage, rushLinkJson')
  | none =>
    .error (.configurationError dependencyName project.packageName)

/-- The internal-dependency loop of `_linkProject`, over the listed names. -/
def linkRushDependencies (cfg : RushConfiguration) (project : RushConfigurationProject) :
    List String → BasePackage → IRushLinkJson → Except LinkError (BasePackage × IRushLinkJson)
  | [], localPackage, rushLinkJson => .ok (localPackage, rushLinkJson)
  | dependencyName :: rest, localPackage, rushLinkJson => do
    let (localPackage', rushLinkJson') ←
      linkRushDependency cfg project localPackage rushLinkJson dependencyName
    linkRushDependencies cfg project rest localPackage' rushLinkJson'

/-- `common/temp/node_modules/.local/<uri-encoded tgz path>/node_modules` for a
project: where the flattened backend placed that project's dependency
symlinks. -/
def pathToLocalInstallation (cfg : RushConfiguration)
    (project : RushConfigurationProject) : FsPath :=
  let unscopedTempProjectName := parseScopedPackageName project.tempProjectName
  let pathToTgzFile : FsPath :=
    cfg.commonTempFolder ++ ["projects", unscopedTempProjectName ++ ".tgz"]
  let escapedPathToTgzFile : String := uriEncode (String.intercalate "/" pathToTgzFile)
  cfg.commonTempFolder ++
    [nodeModulesFolderName, ".local", escapedPathToTgzFile, nodeModulesFolderName]

/-- Body of the regular-dependency loop of `_linkProject` (one `dependencyName`
of `dependencies`): the backend must already have created a symlink at
`pathToLocalInstallation/dependencyName`; verify it exists and is a symlink
(else throw), read the dependency's own `package.json` for its version only
when `DEBUG` is set, then add a child node whose symlink target is that
location. -/
def linkRegularDependency (fs : FileSystem) (contents : JsonContents)
    (pathToLocalInst : FsPath) (localPackage : BasePackage) (dependencyName : String) :
    Except LinkError BasePackage :=
  let dependencyLocalInstallationSymlink : FsPath := pathToLocalInst ++ [dependencyName]
  if ¬ existsSync fs dependencyLocalInstallationSymlink then
    .error (.missingInstalledDependency dependencyName pathToLocalInst)
  else if ¬ isSymbolicLink fs dependencyLocalInstallationSymlink then
    .error (.dependencyNotASymlink dependencyName pathToLocalInst)
  else
    let newLocalFolderPath : FsPath :=
      localPackage.folderPath ++ [nodeModulesFolderName, dependencyName]
    let version : Option String :=
      if DEBUG then
        (jsonLookup contents
          (dependencyLocalInstallationSymlink ++ [packageJsonFilename])).map IPackageJson.version
      else none
    let newLocalPackage : BasePackage :=
      (createLinkedPackage dependencyName version newLocalFolderPath).withSymlinkTarget
        dependencyLocalInstallationSymlink
    localPackage.addChild newLocalPackage

/-- The regular-dependency loop of `_linkProject`, over the listed names. -/
def linkRegularDependencies (fs : FileSystem) (contents : JsonContents)
    (pathToLocalInst : FsPath) :
    List String → BasePackage → Except LinkError BasePackage
  | [], localPackage => .ok localPackage
  | dependencyName :: rest, localPackage => do
    let localPackage' ←
      linkRegularDependency fs contents pathToLocalInst localPackage dependencyName
    linkRegularDependencies fs contents pathToLocalInst rest localPackage'

/-- The tree-building part of `_linkProject`: build the project's root node
from the staging manifest, then run the internal-dependency loop and the
regular-dependency loop.  Returns the finished node tree and the updated link
manifest. -/
def linkProjectTree (cfg : RushConfiguration) (fs : FileSystem) (contents : JsonContents)
    (project : RushConfigurationProject) (rushLinkJson : IRushLinkJson) :
    Except LinkError (BasePackage × IRushLinkJson) := do
  let commonPackageJson := project.tempPackageJson
  let localPackage : BasePackage :=
    createLinkedPackage project.packageJson.name (some commonPackageJson.version)
      project.projectFolder
  let (localPackage', rushLinkJson') ←
    linkRushDependencies cfg project (rushDependencyNames project) localPackage rushLinkJson
  let localPackage'' ←
    linkRegularDependencies fs contents (pathToLocalInstallation cfg project)
      (regularDependencyNames project) localPackage'
  .ok (localPackage'', rushLinkJson')

/-! ## Filesystem projection -/

mutual
/-- Modelled from the spec: `BaseLinkManager._createSymlinksForTopLevelProject`
(§4.5 filesystem projection), as the list of filesystem writes it performs.  A
node with `symlinkTargetFolderPath` set becomes one symlink write at its
`folderPath`, and its children are never walked further; a node without a
target has its folder's `node_modules` child folder created when it has
children, and its children are projected in order. -/
def symlinkWrites : BasePackage → List (FsPath × FsEntry)
  | .mk _ _ folderPath (some target) _ => [(folderPath, .symlink target)]
  | .mk _ _ folderPath none children =>
    (if children.isEmpty then []
     else [(folderPath ++ [nodeModulesFolderName], FsEntry.realDir)]) ++
    symlinkWritesList children

/-- Projection of a list of sibling nodes, in order. -/
def symlinkWritesList : List BasePackage → List (FsPath × FsEntry)
  | [] => []
  | pkg :: rest => symlinkWrites pkg ++ symlinkWritesList rest
end

/-- `common/temp/node_modules/.bin` for a configuration. -/
def commonBinFolder (cfg : RushConfiguration) : FsPath :=
  cfg.commonTempFolder ++ [nodeModulesFolderName, ".bin"]

/-- All of `_linkProject` for one project: build the tree, then compute the
filesystem writes — the projection of the tree plus, when
`common/temp/node_modules/.bin` exists, a symlink for the project's own
`node_modules/.bin` folder. -/
def linkProject (cfg : RushConfiguration) (fs : FileSystem) (contents : JsonContents)
    (project : RushConfigurationProject) (rushLinkJson : IRushLinkJson) :
    Except LinkError (List (FsPath × FsEntry) × IRushLinkJson) := do
  let (localPackage, rushLinkJson') ← linkProjectTree cfg fs contents project rushLinkJson
  let projectBinFolder : FsPath :=
    localPackage.folderPath ++ [nodeModulesFolderName, ".bin"]
  let binWrites : List (FsPath × FsEntry) :=
    if existsSync fs (commonBinFolder cfg) then
      [(projectBinFolder, .symlink (commonBinFolder cfg))]
    else []
  .ok (symlinkWrites localPackage ++ binWrites, rushLinkJson')

/-! ## `_linkProjects` -/

/-- The outcome of one linking run: the final filesystem, the sequence of
manifest files written (the source writes `rush-link.json` with `JsonFile.save`
at most once), and the error that rejected the returned promise, if any. -/
structure RunResult where
  fs : FileSystem
  manifestWrites : List IRushLinkJson
  error : Option LinkError
deriving DecidableEq, Repr

/-- The loop of `_linkProjects`: link each project in order, applying its
filesystem writes as it completes; stop at the first error, leaving the
filesystem as it was at that point.  Also returns the concatenated write
trace and the accumulated manifest. -/
def linkProjectsLoop (cfg : RushConfiguration) (contents : JsonContents) :
    List RushConfigurationProject → FileSystem → IRushLinkJson →
    FileSystem × List (FsPath × FsEntry) × IRushLinkJson × Option LinkError
  | [], fs, rushLinkJson => (fs, [], rushLinkJson, none)
  | project :: rest, fs, rushLinkJson =>
    match linkProject cfg fs contents project rushLinkJson with
    | .error e => (fs, [], rushLinkJson, some e)
    | .ok (writes, rushLinkJson') =>
      let (fs', trace, rushLinkJson'', err) :=
        linkProjectsLoop cfg contents rest (applyWrites fs writes) rushLinkJson'
      (fs', writes ++ trace, rushLinkJson'', err)

/-- `_linkProjects`: start from an empty manifest, link every project, and —
only when every project linked without error — save the accumulated manifest
once, at the end.  On any error the promise is rejected and no manifest is
written. -/
def linkProjects (cfg : RushConfiguration) (contents : JsonContents)
    (fs : FileSystem) : RunResult :=
  let (fs', _, rushLinkJson, err) := linkProjectsLoop cfg contents cfg.projects fs []
  match err with
  | none => { fs := fs', manifestWrites := [rushLinkJson], error := none }
  | some e => { fs := fs', manifestWrites := [], error := some e }

/-! ## Derived descriptions used by the specification theorems -/

/-- Follow exactly two symlink hops from `p`. -/
def resolveTwoHops (fs : FileSystem) (p : FsPath) : Option FsPath :=
  (resolveOneHop fs p).bind (resolveOneHop fs)

/-- The child node the internal-dependency loop builds for a matched name
(junk placeholder when the name does not match; the loop throws there). -/
def rushChildNode (cfg : RushConfiguration) (parentFolder : FsPath) (d : String) :
    BasePackage :=
  match cfg.getProjectByName d with
  | some q =>
    .mk d (some q.packageJson.version) (parentFolder ++ [nodeModulesFolderName, d])
      (some q.projectFolder) []
  | none => .mk d none [] none []

/-- The child node the regular-dependency loop builds for a name. -/
def regularChildNode (contents : JsonContents) (pathToLocalInst : FsPath)
    (parentFolder : FsPath) (d : String) : BasePackage :=
  .mk d
    (if DEBUG then
      (jsonLookup contents (pathToLocalInst ++ [d] ++ [packageJsonFilename])).map
        IPackageJson.version
     else none)
    (parentFolder ++ [nodeModulesFolderName, d])
    (some (pathToLocalInst ++ [d])) []

/-- Record a list of local links for one project, in order. -/
def pushLocalLinks (rushLinkJson : IRushLinkJson) (name : String)
    (deps : List String) : IRushLinkJson :=
  deps.foldl (fun acc d => pushLocalLink acc name d) rushLinkJson

/-- The surviving write of each path in a write sequence (the last one),
ordered by last occurrence; used to characterise `applyWrites`. -/
def lastWrites : List (FsPath × FsEntry) → List (FsPath × FsEntry)
  | [] => []
  | (q, e) :: rest =>
    if q ∈ rest.map Prod.fst then lastWrites rest else lastWrites rest ++ [(q, e)]

/-- Every path `_linkProject` reads from the filesystem while linking one
project: the backend's expected install location of each regular dependency,
and the shared `.bin` folder. -/
def readPaths (cfg : RushConfiguration) (project : RushConfigurationProject) :
    List FsPath :=
  (regularDependencyNames project).map
    (fun d => pathToLocalInstallation cfg project ++ [d]) ++
  [commonBinFolder cfg]

/-- Every path `_linkProject` may write while linking one project: the
project's `node_modules` folder, one entry per declared dependency name, and
the project's `node_modules/.bin`. -/
def writePaths (_cfg : RushConfiguration) (project : RushConfigurationProject) :
    List FsPath :=
  [project.projectFolder ++ [nodeModulesFolderName]] ++
  (rushDependencyNames project ++ regularDependencyNames project).map
    (fun d => project.projectFolder ++ [nodeModulesFolderName, d]) ++
  [project.projectFolder ++ [nodeModulesFolderName, ".bin"]]

/-- All read paths of a whole run. -/
def allReadPaths (cfg : RushConfiguration) : List FsPath :=
  (cfg.projects.map (readPaths cfg)).flatten

/-- A configuration is laid out sanely when nothing the run writes is a
location the run also reads (projects do not live inside the backend's
installation store). -/
def WritesAvoidReads (cfg : RushConfiguration) : Prop :=
  ∀ p ∈ cfg.projects, ∀ q ∈ writePaths cfg p, q ∉ allReadPaths cfg

instance (cfg : RushConfiguration) : Decidable (WritesAvoidReads cfg) := by
  unfold WritesAvoidReads; infer_instance

/-- `Except` result is a success. -/
def exceptOk {α : Type} (x : Except LinkError α) : Bool :=
  match x with
  | .ok _ => true
  | .error _ => false

/-- The children a successful `_linkProject` gives the project's root node:
one node per internal dependency, then one per regular dependency, in
declaration order. -/
def projectChildren (cfg : RushConfiguration) (contents : JsonContents)
    (project : RushConfigurationProject) : List BasePackage :=
  (rushDependencyNames project).map (rushChildNode cfg project.projectFolder) ++
  (regularDependencyNames project).map
    (regularChildNode contents (pathToLocalInstallation cfg project)
      project.projectFolder)

/-! ## Concrete example data -/

/-- A backend store location for `lodash@1.0.0`. -/
def storePath : FsPath :=
  ["repo", "common", "temp", "node_modules", ".store", "lodash@1.0.0"]

/-- Local project `b`: no dependencies. -/
def sampleProjectB : RushConfigurationProject :=
  { packageJson := { name := "b", version := "1.0.0" }
    projectFolder := ["repo", "tools", "b"]
    tempProjectName := "@rush-temp/b"
    tempPackageJson := { name := "@rush-temp/b", version := "0.0.0" } }

/-- Local project `a`: internal dependency `b`, regular dependency `lodash`. -/
def sampleProjectA : RushConfigurationProject :=
  { packageJson := { name := "a", version := "2.0.0" }
    projectFolder := ["repo", "tools", "a"]
    tempProjectName := "@rush-temp/a"
    tempPackageJson := { name := "@rush-temp/a", version := "0.0.0",
                         dependencies := [("lodash", "1.0.0")],
                         rushDependencies := [("b", ">=1.0.0")] } }

/-- A two-project configuration (`a` depends on `b` and on `lodash`). -/
def sampleConfig : RushConfiguration :=
  { projects := [sampleProjectA, sampleProjectB]
    commonTempFolder := ["repo", "common", "temp"] }

/-- Backend state for `sampleConfig`: the backend's symlink for `a`'s `lodash`. -/
def sampleFs : FileSystem :=
  [(pathToLocalInstallation sampleConfig sampleProjectA ++ ["lodash"],
    .symlink storePath)]

/-- The tree and manifest `_linkProject` produces for `sampleProjectA`. -/
def samplePkgA : BasePackage :=
  ((linkProjectTree sampleConfig sampleFs [] sampleProjectA []).toOption.map
    Prod.fst).getD (.mk "" none [] none [])

/-- The manifest after linking `sampleProjectA`. -/
def sampleJOut : IRushLinkJson :=
  ((linkProjectTree sampleConfig sampleFs [] sampleProjectA []).toOption.map
    Prod.snd).getD []

/-- Local project `c1`: only the regular dependency `lodash`. -/
def projC1 : RushConfigurationProject :=
  { packageJson := { name := "c1", version := "1.0.0" }
    projectFolder := ["repo", "tools", "c1"]
    tempProjectName := "@rush-temp/c1"
    tempPackageJson := { name := "@rush-temp/c1", version := "0.0.0",
                         dependencies := [("lodash", "1.0.0")] } }

/-- Local project `c2`: only the regular dependency `lodash`. -/
def projC2 : RushConfigurationProject :=
  { packageJson := { name := "c2", version := "1.0.0" }
    projectFolder := ["repo", "tools", "c2"]
    tempProjectName := "@rush-temp/c2"
    tempPackageJson := { name := "@rush-temp/c2", version := "0.0.0",
                         dependencies := [("lodash", "1.0.0")] } }

/-- Two projects that both depend on `lodash` at the same resolved version. -/
def cfg2 : RushConfiguration :=
  { projects := [projC1, projC2], commonTempFolder := ["repo", "common", "temp"] }

/-- Backend state for `cfg2`: the backend's per-project symlinks for `lodash`,
both resolving to the same store folder. -/
def fs2 : FileSystem :=
  [(pathToLocalInstallation cfg2 projC1 ++ ["lodash"], .symlink storePath),
   (pathToLocalInstallation cfg2 projC2 ++ ["lodash"], .symlink storePath)]

/-- The tree `_linkProject` builds for `projC1`. -/
def pkgC1 : BasePackage :=
  ((linkProjectTree cfg2 fs2 [] projC1 []).toOption.map
    Prod.fst).getD (.mk "" none [] none [])

/-- The manifest after linking `projC1`. -/
def jOutC1 : IRushLinkJson :=
  ((linkProjectTree cfg2 fs2 [] projC1 []).toOption.map Prod.snd).getD []

/-- The filesystem writes `_linkProject` performs for `projC1`. -/
def wC1 : List (FsPath × FsEntry) :=
  ((linkProject cfg2 fs2 [] projC1 []).toOption.map Prod.fst).getD []

/-- The filesystem writes `_linkProject` performs for `projC2`. -/
def wC2 : List (FsPath × FsEntry) :=
  ((linkProject cfg2 fs2 [] projC2 []).toOption.map Prod.fst).getD []

/-- A project whose staging manifest declares the internal dependency `ghost`,
which matches no local project. -/
def projGhost : RushConfigurationProject :=
  { packageJson := { name := "g", version := "1.0.0" }
    projectFolder := ["repo", "tools", "g"]
    tempProjectName := "@rush-temp/g"
    tempPackageJson := { name := "@rush-temp/g", version := "0.0.0",
                         rushDependencies := [("ghost", "1.0.0")] } }

/-- A configuration containing `projGhost`. -/
def cfgGhost : RushConfiguration :=
  { projects := [projGhost], commonTempFolder := ["repo", "common", "temp"] }

/-- A node with one child named `b`. -/
def dupParent : BasePackage :=
  .mk "a" none ["repo", "tools", "a"] none
    [.mk "b" none ["repo", "tools", "a", "node_modules", "b"]
      (some ["repo", "tools", "b"]) []]

/-! ## Basic lemmas about the node model -/

@[simp]
theorem BasePackage.name_mk (n : String) (v : Option String) (fp : FsPath)
    (st : Option FsPath) (cs : List BasePackage) :
    (BasePackage.mk n v fp st cs).name = n := rfl

@[simp]
theorem BasePackage.version_mk (n : String) (v : Option String) (fp : FsPath)
    (st : Option FsPath) (cs : List BasePackage) :
    (BasePackage.mk n v fp st cs).version = v := rfl

@[simp]
theorem BasePackage.folderPath_mk (n : String) (v : Option String) (fp : FsPath)
    (st : Option FsPath) (cs : List BasePackage) :
    (BasePackage.mk n v fp st cs).folderPath = fp := rfl

@[simp]
theorem BasePackage.symlinkTargetFolderPath_mk (n : String) (v : Option String)
    (fp : FsPath) (st : Option FsPath) (cs : List BasePackage) :
    (BasePackage.mk n v fp st cs).symlinkTargetFolderPath = st := rfl

@[simp]
theorem BasePackage.children_mk (n : String) (v : Option String) (fp : FsPath)
    (st : Option FsPath) (cs : List BasePackage) :
    (BasePackage.mk n v fp st cs).children = cs := rfl

theorem BasePackage.eta (pkg : BasePackage) :
    pkg = .mk pkg.name pkg.version pkg.folderPath pkg.symlinkTargetFolderPath
      pkg.children := by
  cases pkg; rfl

@[simp]
theorem BasePackage.name_pushChild (pkg c : BasePackage) :
    (pkg.pushChild c).name = pkg.name := by cases pkg; rfl

@[simp]
theorem BasePackage.version_pushChild (pkg c : BasePackage) :
    (pkg.pushChild c).version = pkg.version := by cases pkg; rfl

@[simp]
theorem BasePackage.folderPath_pushChild (pkg c : BasePackage) :
    (pkg.pushChild c).folderPath = pkg.folderPath := by cases pkg; rfl

@[simp]
theorem BasePackage.symlinkTargetFolderPath_pushChild (pkg c : BasePackage) :
    (pkg.pushChild c).symlinkTargetFolderPath = pkg.symlinkTargetFolderPath := by
  cases pkg; rfl

@[simp]
theorem BasePackage.children_pushChild (pkg c : BasePackage) :
    (pkg.pushChild c).children = pkg.children ++ [c] := by cases pkg; rfl

@[simp]
theorem BasePackage.pushChild_mk (n : String) (v : Option String) (fp : FsPath)
    (st : Option FsPath) (cs : List BasePackage) (c : BasePackage) :
    (BasePackage.mk n v fp st cs).pushChild c = .mk n v fp st (cs ++ [c]) := rfl

@[simp]
theorem BasePackage.withSymlinkTarget_mk (n : String) (v : Option String)
    (fp : FsPath) (st : Option FsPath) (cs : List BasePackage) (t : FsPath) :
    (BasePackage.mk n v fp st cs).withSymlinkTarget t = .mk n v fp (some t) cs := rfl

@[simp]
theorem createLinkedPackage_def (n : String) (v : Option String) (fp : FsPath) :
    createLinkedPackage n v fp = .mk n v fp none [] := rfl

/-! ## Filesystem lemmas -/

theorem fsLookup_filter_ne {fs : FileSystem} {p q : FsPath} (h : q ≠ p) :
    fsLookup (fs.filter (fun kv => kv.1 ≠ p)) q = fsLookup fs q := by
  induction fs with
  | nil => rfl
  | cons kv rest ih =>
    obtain ⟨r, e⟩ := kv
    rw [List.filter_cons]
    by_cases hr : r = p
    · have h1 : (decide ((r, e).1 ≠ p)) = false := by simp [hr]
      rw [h1]
      have h2 : ¬(r = q) := fun hc => h (hc ▸ hr)
      simp only [Bool.false_eq_true, if_false, ih]
      simp [fsLookup, h2]
    · have h1 : (decide ((r, e).1 ≠ p)) = true := by simp [hr]
      rw [h1]
      simp only [if_true]
      show (if r = q then some e else fsLookup (rest.filter (fun kv => kv.1 ≠ p)) q)
          = (if r = q then some e else fsLookup rest q)
      by_cases hrq : r = q
      · rw [if_pos hrq, if_pos hrq]
      · rw [if_neg hrq, if_neg hrq, ih]

@[simp]
theorem fsLookup_insert_self (fs : FileSystem) (p : FsPath) (e : FsEntry) :
    fsLookup (fsInsert fs p e) p = some e := by
  simp [fsInsert, fsLookup]

theorem fsLookup_insert_ne (fs : FileSystem) {p q : FsPath} (e : FsEntry)
    (h : q ≠ p) : fsLookup (fsInsert fs p e) q = fsLookup fs q := by
  have hp : ¬(p = q) := fun hc => h hc.symm
  show (if p = q then some e else fsLookup (fs.filter (fun kv => kv.1 ≠ p)) q)
      = fsLookup fs q
  rw [if_neg hp, fsLookup_filter_ne h]

@[simp]
theorem applyWrites_nil (fs : FileSystem) : applyWrites fs [] = fs := rfl

theorem applyWrites_cons (fs : FileSystem) (q : FsPath) (e : FsEntry)
    (ws : List (FsPath × FsEntry)) :
    applyWrites fs ((q, e) :: ws) = applyWrites (fsInsert fs q e) ws := rfl

theorem applyWrites_append (fs : FileSystem) (w₁ w₂ : List (FsPath × FsEntry)) :
    applyWrites fs (w₁ ++ w₂) = applyWrites (applyWrites fs w₁) w₂ := by
  simp [applyWrites, List.foldl_append]

theorem fsLookup_applyWrites_not_mem {q : FsPath} :
    ∀ (ws : List (FsPath × FsEntry)) (fs : FileSystem), q ∉ ws.map Prod.fst →
      fsLookup (applyWrites fs ws) q = fsLookup fs q := by
  intro ws
  induction ws with
  | nil => intro fs _; rfl
  | cons kv rest ih =>
    intro fs h
    obtain ⟨r, e⟩ := kv
    simp only [List.map_cons, List.mem_cons, not_or] at h
    rw [applyWrites_cons, ih _ h.2, fsLookup_insert_ne _ _ h.1]

theorem applyWrites_eq_lastWrites (fs : FileSystem) (ws : List (FsPath × FsEntry)) :
    applyWrites fs ws =
      lastWrites ws ++ fs.filter (fun kv => kv.1 ∉ ws.map Prod.fst) := by
  induction ws generalizing fs with
  | nil => simp [lastWrites]
  | cons kv rest ih =>
    obtain ⟨q, e⟩ := kv
    rw [applyWrites_cons, ih]
    have hfil : ∀ g : FileSystem,
        (g.filter (fun kv => kv.1 ≠ q)).filter (fun kv => kv.1 ∉ rest.map Prod.fst) =
        g.filter (fun kv => kv.1 ∉ ((q, e) :: rest).map Prod.fst) := by
      intro g
      rw [List.filter_filter]
      apply List.filter_congr
      intro kv _
      rw [← Bool.decide_and]
      apply decide_eq_decide.mpr
      simp only [List.map_cons, List.mem_cons, not_or]
      tauto
    by_cases hq : q ∈ rest.map Prod.fst
    · have hlw : lastWrites ((q, e) :: rest) = lastWrites rest := by
        simp [lastWrites, hq]
      rw [hlw, ← hfil]
      congr 1
      have : (fsInsert fs q e).filter (fun kv => kv.1 ∉ rest.map Prod.fst) =
          (fs.filter (fun kv => kv.1 ≠ q)).filter
            (fun kv => kv.1 ∉ rest.map Prod.fst) := by
        simp [fsInsert, List.filter_cons, hq]
      rw [this]
    · have hlw : lastWrites ((q, e) :: rest) = lastWrites rest ++ [(q, e)] := by
        simp [lastWrites, hq]
      rw [hlw, List.append_assoc, ← hfil]
      congr 1
      have : (fsInsert fs q e).filter (fun kv => kv.1 ∉ rest.map Prod.fst) =
          (q, e) :: (fs.filter (fun kv => kv.1 ≠ q)).filter
            (fun kv => kv.1 ∉ rest.map Prod.fst) := by
        simp [fsInsert, List.filter_cons, hq]
      rw [this]
      rfl

theorem lastWrites_key_mem {ws : List (FsPath × FsEntry)} {q : FsPath} {e : FsEntry}
    (h : (q, e) ∈ lastWrites ws) : q ∈ ws.map Prod.fst := by
  induction ws with
  | nil => simp [lastWrites] at h
  | cons kv rest ih =>
    obtain ⟨r, e'⟩ := kv
    simp only [lastWrites] at h
    by_cases hr : r ∈ rest.map Prod.fst
    · rw [if_pos hr] at h
      simp only [List.map_cons, List.mem_cons]
      exact Or.inr (ih h)
    · rw [if_neg hr] at h
      rcases List.mem_append.mp h with h' | h'
      · simp only [List.map_cons, List.mem_cons]
        exact Or.inr (ih h')
      · simp only [List.mem_singleton, Prod.mk.injEq] at h'
        simp [h'.1]

theorem applyWrites_idem (fs : FileSystem) (ws : List (FsPath × FsEntry)) :
    applyWrites (applyWrites fs ws) ws = applyWrites fs ws := by
  rw [applyWrites_eq_lastWrites fs ws, applyWrites_eq_lastWrites, List.filter_append]
  have h1 : (lastWrites ws).filter (fun kv => kv.1 ∉ ws.map Prod.fst) = [] := by
    apply List.filter_eq_nil_iff.mpr
    rintro ⟨q, e⟩ hmem
    simpa using lastWrites_key_mem hmem
  have h2 : (fs.filter (fun kv => kv.1 ∉ ws.map Prod.fst)).filter
      (fun kv => kv.1 ∉ ws.map Prod.fst) =
      fs.filter (fun kv => kv.1 ∉ ws.map Prod.fst) := by
    apply List.filter_eq_self.mpr
    rintro ⟨q, e⟩ hmem
    exact (List.mem_filter.mp hmem).2
  rw [h1, h2]
  rfl

/-! ## Link manifest lemmas -/

theorem getLocalLinks_push_self (j : IRushLinkJson) (n d : String) :
    getLocalLinks (pushLocalLink j n d) n = some ((getLocalLinks j n).getD [] ++ [d]) := by
  induction j with
  | nil => simp [pushLocalLink, getLocalLinks]
  | cons kv rest ih =>
    obtain ⟨m, l⟩ := kv
    by_cases hm : m = n
    · subst hm
      simp [pushLocalLink, getLocalLinks]
    · simp [pushLocalLink, getLocalLinks, hm, ih]

theorem getLocalLinks_push_ne (j : IRushLinkJson) {n m : String} (d : String)
    (h : m ≠ n) : getLocalLinks (pushLocalLink j n d) m = getLocalLinks j m := by
  induction j with
  | nil =>
    have hn : ¬(n = m) := fun hc => h hc.symm
    simp [pushLocalLink, getLocalLinks, hn]
  | cons kv rest ih =>
    obtain ⟨m', l⟩ := kv
    by_cases hm : m' = n
    · subst hm
      have hm2 : ¬(m' = m) := fun hc => h hc.symm
      simp [pushLocalLink, getLocalLinks, hm2]
    · simp only [pushLocalLink, if_neg hm]
      by_cases hm2 : m' = m
      · simp [getLocalLinks, hm2]
      · simp [getLocalLinks, hm2, ih]

@[simp]
theorem pushLocalLinks_nil (j : IRushLinkJson) (n : String) :
    pushLocalLinks j n [] = j := rfl

theorem pushLocalLinks_cons (j : IRushLinkJson) (n d : String) (ds : List String) :
    pushLocalLinks j n (d :: ds) = pushLocalLinks (pushLocalLink j n d) n ds := rfl

theorem getLocalLinks_pushLocalLinks_self (j : IRushLinkJson) (n : String)
    {ds : List String} (h : ds ≠ []) :
    getLocalLinks (pushLocalLinks j n ds) n =
      some ((getLocalLinks j n).getD [] ++ ds) := by
  induction ds generalizing j with
  | nil => exact absurd rfl h
  | cons d rest ih =>
    rw [pushLocalLinks_cons]
    by_cases hrest : rest = []
    · subst hrest
      simp [getLocalLinks_push_self]
    · rw [ih _ hrest, getLocalLinks_push_self]
      simp

theorem getLocalLinks_pushLocalLinks_ne (j : IRushLinkJson) {n m : String}
    (ds : List String) (h : m ≠ n) :
    getLocalLinks (pushLocalLinks j n ds) m = getLocalLinks j m := by
  induction ds generalizing j with
  | nil => rfl
  | cons d rest ih =>
    rw [pushLocalLinks_cons, ih, getLocalLinks_push_ne _ _ h]

/-! ## Shape of the internal-dependency loop -/

theorem linkRushDependency_ok {cfg : RushConfiguration}
    {project : RushConfigurationProject} {lp : BasePackage} {j : IRushLinkJson}
    {d : String} {q : RushConfigurationProject}
    (hq : cfg.getProjectByName d = some q) :
    linkRushDependency cfg project lp j d =
      .ok (lp.pushChild (rushChildNode cfg lp.folderPath d),
           pushLocalLink j lp.name d) := by
  simp [linkRushDependency, rushChildNode, hq]

theorem linkRushDependency_err {cfg : RushConfiguration}
    {project : RushConfigurationProject} {lp : BasePackage} {j : IRushLinkJson}
    {d : String} (hq : cfg.getProjectByName d = none) :
    linkRushDependency cfg project lp j d =
      .error (.configurationError d project.packageName) := by
  simp [linkRushDependency, hq]

theorem linkRushDependencies_ok {cfg : RushConfiguration}
    {project : RushConfigurationProject} :
    ∀ {names : List String} {lp lp' : BasePackage} {j j' : IRushLinkJson},
      linkRushDependencies cfg project names lp j = .ok (lp', j') →
      (∀ d ∈ names, (cfg.getProjectByName d).isSome) ∧
      lp' = .mk lp.name lp.version lp.folderPath lp.symlinkTargetFolderPath
              (lp.children ++ names.map (rushChildNode cfg lp.folderPath)) ∧
      j' = pushLocalLinks j lp.name names := by
  intro names
  induction names with
  | nil =>
    intro lp lp' j j' h
    simp only [linkRushDependencies] at h
    have h' := Except.ok.inj h
    have h1 : lp = lp' := congrArg Prod.fst h'
    have h2 : j = j' := congrArg Prod.snd h'
    subst h1; subst h2
    refine ⟨by simp, ?_, rfl⟩
    simpa using BasePackage.eta lp
  | cons d rest ih =>
    intro lp lp' j j' h
    cases hq : cfg.getProjectByName d with
    | none =>
      rw [linkRushDependencies, linkRushDependency_err hq] at h
      simp [bind, Except.bind] at h
    | some q =>
      rw [linkRushDependencies, linkRushDependency_ok hq] at h
      simp only [bind, Except.bind] at h
      obtain ⟨hall, hlp, hj⟩ := ih h
      refine ⟨?_, ?_, ?_⟩
      · intro x hx
        rcases List.mem_cons.mp hx with hx | hx
        · subst hx; simp [hq]
        · exact hall x hx
      · rw [hlp]
        simp
      · rw [hj, pushLocalLinks_cons]
        simp

/-! ## Shape of the regular-dependency loop -/

theorem linkRegularDependency_missing {fs : FileSystem} {contents : JsonContents}
    {pli : FsPath} {lp : BasePackage} {d : String}
    (h : fsLookup fs (pli ++ [d]) = none) :
    linkRegularDependency fs contents pli lp d =
      .error (.missingInstalledDependency d pli) := by
  simp [linkRegularDependency, existsSync, h]

theorem linkRegularDependency_notSymlink {fs : FileSystem} {contents : JsonContents}
    {pli : FsPath} {lp : BasePackage} {d : String}
    (h : fsLookup fs (pli ++ [d]) = some .realDir) :
    linkRegularDependency fs contents pli lp d =
      .error (.dependencyNotASymlink d pli) := by
  simp [linkRegularDependency, existsSync, isSymbolicLink, h]

theorem linkRegularDependency_symlink {fs : FileSystem} {contents : JsonContents}
    {pli : FsPath} {lp : BasePackage} {d : String} {t : FsPath}
    (h : fsLookup fs (pli ++ [d]) = some (.symlink t)) :
    linkRegularDependency fs contents pli lp d =
      lp.addChild (regularChildNode contents pli lp.folderPath d) := by
  simp [linkRegularDependency, existsSync, isSymbolicLink, h, regularChildNode,
    List.append_assoc]

theorem linkRegularDependencies_ok {fs : FileSystem} {contents : JsonContents}
    {pli : FsPath} :
    ∀ {names : List String} {lp lp' : BasePackage},
      linkRegularDependencies fs contents pli names lp = .ok lp' →
      (∀ d ∈ names, ∃ t, fsLookup fs (pli ++ [d]) = some (.symlink t)) ∧
      (∀ d ∈ names, d ∉ lp.children.map BasePackage.name) ∧
      names.Nodup ∧
      lp' = .mk lp.name lp.version lp.folderPath lp.symlinkTargetFolderPath
              (lp.children ++ names.map (regularChildNode contents pli lp.folderPath)) := by
  intro names
  induction names with
  | nil =>
    intro lp lp' h
    simp only [linkRegularDependencies] at h
    have h1 : lp = lp' := Except.ok.inj h
    subst h1
    refine ⟨by simp, by simp, List.nodup_nil, ?_⟩
    simpa using BasePackage.eta lp
  | cons d rest ih =>
    intro lp lp' h
    rw [linkRegularDependencies] at h
    cases he : fsLookup fs (pli ++ [d]) with
    | none =>
      rw [linkRegularDependency_missing he] at h
      simp [bind, Except.bind] at h
    | some entry =>
      cases entry with
      | realDir =>
        rw [linkRegularDependency_notSymlink he] at h
        simp [bind, Except.bind] at h
      | symlink t =>
        rw [linkRegularDependency_symlink he] at h
        by_cases hdup :
            (regularChildNode contents pli lp.folderPath d).name ∈
              lp.children.map BasePackage.name
        · rw [BasePackage.addChild, if_pos hdup] at h
          simp [bind, Except.bind] at h
        · rw [BasePackage.addChild, if_neg hdup] at h
          simp only [bind, Except.bind] at h
          obtain ⟨hall, hnotmem, hnodup, hlp⟩ := ih h
          have hdname : (regularChildNode contents pli lp.folderPath d).name = d := rfl
          rw [hdname] at hdup
          refine ⟨?_, ?_, ?_, ?_⟩
          · intro x hx
            rcases List.mem_cons.mp hx with hx | hx
            · subst hx; exact ⟨t, he⟩
            · exact hall x hx
          · intro x hx
            rcases List.mem_cons.mp hx with hx | hx
            · subst hx; exact hdup
            · intro hc
              exact hnotmem x hx (by simp [hc])
          · refine List.nodup_cons.mpr ⟨?_, hnodup⟩
            intro hc
            have := hnotmem d hc
            simp [hdname] at this
          · rw [hlp]
            simp

/-- The node built for an internal dependency keeps the dependency's name. -/
theorem name_rushChildNode (cfg : RushConfiguration) (folder : FsPath) (d : String) :
    (rushChildNode cfg folder d).name = d := by
  rw [rushChildNode]
  cases cfg.getProjectByName d <;> rfl

/-! ## Shape of `linkProjectTree` -/

theorem linkProjectTree_ok {cfg : RushConfiguration} {fs : FileSystem}
    {contents : JsonContents} {project : RushConfigurationProject}
    {j j' : IRushLinkJson} {pkg : BasePackage}
    (h : linkProjectTree cfg fs contents project j = .ok (pkg, j')) :
    pkg = .mk project.packageJson.name (some project.tempPackageJson.version)
            project.projectFolder none (projectChildren cfg contents project) ∧
    j' = pushLocalLinks j project.packageJson.name (rushDependencyNames project) ∧
    (∀ d ∈ rushDependencyNames project, (cfg.getProjectByName d).isSome) ∧
    (∀ d ∈ regularDependencyNames project, ∃ t,
        fsLookup fs (pathToLocalInstallation cfg project ++ [d]) =
          some (.symlink t)) ∧
    (∀ d ∈ regularDependencyNames project, d ∉ rushDependencyNames project) ∧
    (regularDependencyNames project).Nodup := by
  rw [linkProjectTree] at h
  cases hr : linkRushDependencies cfg project (rushDependencyNames project)
      (createLinkedPackage project.packageJson.name
        (some project.tempPackageJson.version) project.projectFolder) j with
  | error e =>
    rw [hr] at h
    simp [bind, Except.bind] at h
  | ok res =>
    obtain ⟨lp1, j1⟩ := res
    rw [hr] at h
    simp only [bind, Except.bind] at h
    cases hreg : linkRegularDependencies fs contents
        (pathToLocalInstallation cfg project) (regularDependencyNames project) lp1 with
    | error e =>
      rw [hreg] at h
      simp [bind, Except.bind] at h
    | ok lp2 =>
      rw [hreg] at h
      simp only [bind, Except.bind] at h
      have h' := Except.ok.inj h
      have hpkg : lp2 = pkg := congrArg Prod.fst h'
      have hj : j1 = j' := congrArg Prod.snd h'
      obtain ⟨hrAll, hrShape, hrJ⟩ := linkRushDependencies_ok hr
      obtain ⟨hgAll, hgNot, hgNodup, hgShape⟩ := linkRegularDependencies_ok hreg
      have hnames : lp1.children.map BasePackage.name =
          rushDependencyNames project := by
        rw [hrShape]
        simp [Function.comp_def, name_rushChildNode]
      refine ⟨?_, ?_, hrAll, hgAll, ?_, hgNodup⟩
      · rw [← hpkg, hgShape, hrShape]
        simp [projectChildren]
      · rw [← hj, hrJ]
        simp
      · intro d hd
        have := hgNot d hd
        rw [hnames] at this
        exact this

/-! ## Filesystem projection of the finished tree -/

theorem symlinkWrites_target (n : String) (v : Option String) (fp : FsPath)
    (t : FsPath) (cs : List BasePackage) :
    symlinkWrites (.mk n v fp (some t) cs) = [(fp, .symlink t)] := by
  rw [symlinkWrites]

theorem symlinkWrites_root (n : String) (v : Option String) (fp : FsPath)
    (cs : List BasePackage) :
    symlinkWrites (.mk n v fp none cs) =
      (if cs.isEmpty then []
       else [(fp ++ [nodeModulesFolderName], FsEntry.realDir)]) ++
      symlinkWritesList cs := by
  rw [symlinkWrites]

theorem symlinkWritesList_nil : symlinkWritesList [] = [] := by
  rw [symlinkWritesList]

theorem symlinkWritesList_cons (pkg : BasePackage) (rest : List BasePackage) :
    symlinkWritesList (pkg :: rest) = symlinkWrites pkg ++ symlinkWritesList rest := by
  rw [symlinkWritesList]

theorem symlinkWritesList_of_targets {cs : List BasePackage}
    (h : ∀ c ∈ cs, ∃ t, c.symlinkTargetFolderPath = some t) :
    symlinkWritesList cs =
      cs.map (fun c =>
        (c.folderPath, FsEntry.symlink (c.symlinkTargetFolderPath.getD []))) := by
  induction cs with
  | nil => rw [symlinkWritesList_nil]; rfl
  | cons c rest ih =>
    obtain ⟨t, ht⟩ := h c (List.mem_cons_self c rest)
    rw [symlinkWritesList_cons, ih (fun x hx => h x (List.mem_cons_of_mem c hx))]
    obtain ⟨n, v, fp, st, cc⟩ := c
    simp only [BasePackage.symlinkTargetFolderPath_mk] at ht
    subst ht
    rw [symlinkWrites_target]
    simp

/-- Every child a successful link gives the root: symlink target set, no
children of its own, folder directly under the project's `node_modules`. -/
theorem projectChildren_shape {cfg : RushConfiguration} {contents : JsonContents}
    {project : RushConfigurationProject}
    (hall : ∀ d ∈ rushDependencyNames project, (cfg.getProjectByName d).isSome) :
    ∀ c ∈ projectChildren cfg contents project,
      (∃ t, c.symlinkTargetFolderPath = some t) ∧ c.children = [] ∧
      c.folderPath = project.projectFolder ++ [nodeModulesFolderName, c.name] := by
  intro c hc
  rw [projectChildren] at hc
  rcases List.mem_append.mp hc with hc | hc
  · obtain ⟨d, hd, hcd⟩ := List.mem_map.mp hc
    have := hall d hd
    cases hq : cfg.getProjectByName d with
    | none => rw [hq] at this; simp at this
    | some q =>
      rw [← hcd, rushChildNode, hq]
      simp
  · obtain ⟨d, hd, hcd⟩ := List.mem_map.mp hc
    rw [← hcd, regularChildNode]
    simp

/-- The writes a successful `_linkProject` performs, and the manifest it
returns. -/
theorem linkProject_ok {cfg : RushConfiguration} {fs : FileSystem}
    {contents : JsonContents} {project : RushConfigurationProject}
    {j j' : IRushLinkJson} {w : List (FsPath × FsEntry)}
    (h : linkProject cfg fs contents project j = .ok (w, j')) :
    w = (if (projectChildren cfg contents project).isEmpty then []
         else [(project.projectFolder ++ [nodeModulesFolderName], FsEntry.realDir)]) ++
        (projectChildren cfg contents project).map
          (fun c =>
            (c.folderPath, FsEntry.symlink (c.symlinkTargetFolderPath.getD []))) ++
        (if existsSync fs (commonBinFolder cfg) then
          [(project.projectFolder ++ [nodeModulesFolderName, ".bin"],
            FsEntry.symlink (commonBinFolder cfg))]
         else []) ∧
    j' = pushLocalLinks j project.packageJson.name (rushDependencyNames project) ∧
    (∀ d ∈ rushDependencyNames project, (cfg.getProjectByName d).isSome) := by
  rw [linkProject] at h
  cases ht : linkProjectTree cfg fs contents project j with
  | error e => rw [ht] at h; simp [bind, Except.bind] at h
  | ok res =>
    obtain ⟨pkg, j1⟩ := res
    rw [ht] at h
    simp only [bind, Except.bind] at h
    have h' := Except.ok.inj h
    have hw : symlinkWrites pkg ++
        (if existsSync fs (commonBinFolder cfg) then
          [(pkg.folderPath ++ [nodeModulesFolderName, ".bin"],
            FsEntry.symlink (commonBinFolder cfg))]
         else []) = w := congrArg Prod.fst h'
    have hj : j1 = j' := congrArg Prod.snd h'
    obtain ⟨hpkg, hj1, hall, _, _, _⟩ := linkProjectTree_ok ht
    refine ⟨?_, ?_, hall⟩
    · rw [← hw, hpkg, symlinkWrites_root,
        symlinkWritesList_of_targets
          (fun c hc => ((projectChildren_shape hall) c hc).1)]
      simp
    · rw [← hj, hj1]

/-! ## Reads of `_linkProject` -/

theorem linkRegularDependency_frame {fs₁ fs₂ : FileSystem}
    {contents : JsonContents} {pli : FsPath} {lp : BasePackage} {d : String}
    (h : fsLookup fs₁ (pli ++ [d]) = fsLookup fs₂ (pli ++ [d])) :
    linkRegularDependency fs₁ contents pli lp d =
      linkRegularDependency fs₂ contents pli lp d := by
  simp only [linkRegularDependency, existsSync, isSymbolicLink, h]

theorem linkRegularDependencies_frame {fs₁ fs₂ : FileSystem}
    {contents : JsonContents} {pli : FsPath} :
    ∀ {names : List String} {lp : BasePackage},
      (∀ d ∈ names, fsLookup fs₁ (pli ++ [d]) = fsLookup fs₂ (pli ++ [d])) →
      linkRegularDependencies fs₁ contents pli names lp =
        linkRegularDependencies fs₂ contents pli names lp := by
  intro names
  induction names with
  | nil => intro lp _; rfl
  | cons d rest ih =>
    intro lp h
    rw [linkRegularDependencies, linkRegularDependencies,
      linkRegularDependency_frame (h d (List.mem_cons_self d rest))]
    cases linkRegularDependency fs₂ contents pli lp d with
    | error e => rfl
    | ok lp1 =>
      simp only [bind, Except.bind]
      exact ih (fun x hx => h x (List.mem_cons_of_mem d hx))

theorem linkProject_frame {cfg : RushConfiguration} {fs₁ fs₂ : FileSystem}
    {contents : JsonContents} {project : RushConfigurationProject}
    {j : IRushLinkJson}
    (h : ∀ q ∈ readPaths cfg project, fsLookup fs₁ q = fsLookup fs₂ q) :
    linkProject cfg fs₁ contents project j = linkProject cfg fs₂ contents project j := by
  have hbin : fsLookup fs₁ (commonBinFolder cfg) = fsLookup fs₂ (commonBinFolder cfg) :=
    h _ (by simp [readPaths])
  have htree : linkProjectTree cfg fs₁ contents project j =
      linkProjectTree cfg fs₂ contents project j := by
    rw [linkProjectTree, linkProjectTree]
    cases linkRushDependencies cfg project (rushDependencyNames project)
        (createLinkedPackage project.packageJson.name
          (some project.tempPackageJson.version) project.projectFolder) j with
    | error e => rfl
    | ok res =>
      obtain ⟨lp1, j1⟩ := res
      simp only [bind, Except.bind]
      rw [linkRegularDependencies_frame]
      intro d hd
      refine h _ ?_
      rw [readPaths]
      exact List.mem_append.mpr (Or.inl (List.mem_map.mpr ⟨d, hd, rfl⟩))
  rw [linkProject, linkProject, htree, existsSync, existsSync, hbin]

/-! ## Writes of `_linkProject` stay inside the project folder -/

theorem linkProject_writes_paths {cfg : RushConfiguration} {fs : FileSystem}
    {contents : JsonContents} {project : RushConfigurationProject}
    {j j' : IRushLinkJson} {w : List (FsPath × FsEntry)}
    (h : linkProject cfg fs contents project j = .ok (w, j')) :
    ∀ q ∈ w.map Prod.fst, q ∈ writePaths cfg project := by
  obtain ⟨hw, _, hall⟩ := linkProject_ok h
  intro q hq
  rw [hw] at hq
  simp only [List.map_append, List.mem_append] at hq
  rcases hq with (hq | hq) | hq
  · by_cases hni : (projectChildren cfg contents project).isEmpty = true
    · rw [if_pos hni] at hq
      simp at hq
    · rw [if_neg hni] at hq
      simp only [List.map_cons, List.map_nil, List.mem_singleton] at hq
      rw [hq, writePaths]
      simp
  · simp only [List.map_map, List.mem_map] at hq
    obtain ⟨c, hc, hcq⟩ := hq
    obtain ⟨_, _, hfp⟩ := projectChildren_shape hall c hc
    have hname : c.name ∈ rushDependencyNames project ++
        regularDependencyNames project := by
      rw [projectChildren] at hc
      rcases List.mem_append.mp hc with hc | hc
      · obtain ⟨d, hd, hcd⟩ := List.mem_map.mp hc
        refine List.mem_append.mpr (Or.inl ?_)
        rw [← hcd, name_rushChildNode]
        exact hd
      · obtain ⟨d, hd, hcd⟩ := List.mem_map.mp hc
        refine List.mem_append.mpr (Or.inr ?_)
        rw [← hcd]
        exact hd
    rw [← hcq]
    simp only [Function.comp_apply]
    rw [hfp, writePaths]
    simp only [List.cons_append, List.nil_append, List.mem_cons, List.mem_append,
      List.mem_map, List.mem_singleton]
    right; left
    exact ⟨c.name, List.mem_append.mp hname, rfl⟩
  · by_cases hbin : existsSync fs (commonBinFolder cfg) = true
    · rw [if_pos hbin] at hq
      simp only [List.map_cons, List.map_nil, List.mem_singleton] at hq
      rw [hq, writePaths]
      simp
    · rw [if_neg hbin] at hq
      simp at hq

/-! ## The project loop -/

theorem readPaths_sub_allReadPaths {cfg : RushConfiguration}
    {project : RushConfigurationProject} (hp : project ∈ cfg.projects) :
    ∀ q ∈ readPaths cfg project, q ∈ allReadPaths cfg := by
  intro q hq
  rw [allReadPaths]
  exact List.mem_flatten.mpr ⟨readPaths cfg project,
    List.mem_map.mpr ⟨project, hp, rfl⟩, hq⟩

theorem linkProjectsLoop_fs {cfg : RushConfiguration} {contents : JsonContents} :
    ∀ (ps : List RushConfigurationProject) (fs : FileSystem) (j : IRushLinkJson),
      (linkProjectsLoop cfg contents ps fs j).1 =
        applyWrites fs (linkProjectsLoop cfg contents ps fs j).2.1 := by
  intro ps
  induction ps with
  | nil => intro fs j; rfl
  | cons p rest ih =>
    intro fs j
    rw [linkProjectsLoop]
    cases linkProject cfg fs contents p j with
    | error e => rfl
    | ok res =>
      obtain ⟨w, j'⟩ := res
      simp only
      rw [ih, applyWrites_append]

theorem linkProjectsLoop_trace_paths {cfg : RushConfiguration}
    {contents : JsonContents} :
    ∀ (ps : List RushConfigurationProject), (∀ p ∈ ps, p ∈ cfg.projects) →
    ∀ (fs : FileSystem) (j : IRushLinkJson),
    ∀ q ∈ (linkProjectsLoop cfg contents ps fs j).2.1.map Prod.fst,
      ∃ p ∈ cfg.projects, q ∈ writePaths cfg p := by
  intro ps
  induction ps with
  | nil => intro _ fs j q hq; simp [linkProjectsLoop] at hq
  | cons p rest ih =>
    intro hmem fs j q hq
    rw [linkProjectsLoop] at hq
    cases hE : linkProject cfg fs contents p j with
    | error e => rw [hE] at hq; simp at hq
    | ok res =>
      obtain ⟨w, j'⟩ := res
      rw [hE] at hq
      simp only [List.map_append, List.mem_append] at hq
      rcases hq with hq | hq
      · exact ⟨p, hmem p (List.mem_cons_self p rest),
          linkProject_writes_paths hE q hq⟩
      · exact ih (fun x hx => hmem x (List.mem_cons_of_mem p hx)) _ _ q hq

theorem linkProjectsLoop_frame {cfg : RushConfiguration} {contents : JsonContents}
    (HW : WritesAvoidReads cfg) :
    ∀ (ps : List RushConfigurationProject), (∀ p ∈ ps, p ∈ cfg.projects) →
    ∀ (fs₁ fs₂ : FileSystem) (j : IRushLinkJson),
      (∀ q ∈ allReadPaths cfg, fsLookup fs₁ q = fsLookup fs₂ q) →
      (linkProjectsLoop cfg contents ps fs₁ j).2 =
        (linkProjectsLoop cfg contents ps fs₂ j).2 := by
  intro ps
  induction ps with
  | nil => intro _ fs₁ fs₂ j _; rfl
  | cons p rest ih =>
    intro hmem fs₁ fs₂ j hagree
    have hp : p ∈ cfg.projects := hmem p (List.mem_cons_self p rest)
    have hproj : linkProject cfg fs₁ contents p j = linkProject cfg fs₂ contents p j :=
      linkProject_frame (fun q hq => hagree q (readPaths_sub_allReadPaths hp q hq))
    rw [linkProjectsLoop, linkProjectsLoop, hproj]
    cases hE : linkProject cfg fs₂ contents p j with
    | error e => rfl
    | ok res =>
      obtain ⟨w, j'⟩ := res
      simp only
      have hagree' : ∀ q ∈ allReadPaths cfg,
          fsLookup (applyWrites fs₁ w) q = fsLookup (applyWrites fs₂ w) q := by
        intro q hq
        have hqw : q ∉ w.map Prod.fst := by
          intro hc
          have := linkProject_writes_paths hE q hc
          exact HW p hp q this hq
        rw [fsLookup_applyWrites_not_mem _ _ hqw,
          fsLookup_applyWrites_not_mem _ _ hqw]
        exact hagree q hq
      have := ih (fun x hx => hmem x (List.mem_cons_of_mem p hx))
        (applyWrites fs₁ w) (applyWrites fs₂ w) j' hagree'
      exact congrArg (fun x => (w ++ x.1, x.2.1, x.2.2)) this

/-! ## An unmatched internal dependency always aborts its project -/

theorem linkRushDependencies_err_of_unmatched {cfg : RushConfiguration}
    {project : RushConfigurationProject} :
    ∀ {names : List String} {d : String}, d ∈ names →
      cfg.getProjectByName d = none →
      ∀ (lp : BasePackage) (j : IRushLinkJson), ∃ d', d' ∈ names ∧
        cfg.getProjectByName d' = none ∧
        linkRushDependencies cfg project names lp j =
          .error (.configurationError d' project.packageName) := by
  intro names
  induction names with
  | nil => intro d hd; simp at hd
  | cons n rest ih =>
    intro d hd hq lp j
    cases hn : cfg.getProjectByName n with
    | none =>
      refine ⟨n, List.mem_cons_self n rest, hn, ?_⟩
      rw [linkRushDependencies, linkRushDependency_err hn]
      rfl
    | some q =>
      have hdr : d ∈ rest := by
        rcases List.mem_cons.mp hd with hd | hd
        · subst hd; rw [hn] at hq; exact absurd hq (by simp)
        · exact hd
      obtain ⟨d', hd', hq', herr⟩ := ih hdr hq (lp.pushChild
        (rushChildNode cfg lp.folderPath n)) (pushLocalLink j lp.name n)
      refine ⟨d', List.mem_cons_of_mem n hd', hq', ?_⟩
      rw [linkRushDependencies, linkRushDependency_ok hn]
      simpa [bind, Except.bind] using herr

theorem linkProject_err_of_unmatched {cfg : RushConfiguration}
    {contents : JsonContents} {project : RushConfigurationProject} {d : String}
    (hd : d ∈ rushDependencyNames project)
    (hq : cfg.getProjectByName d = none) :
    ∀ (fs : FileSystem) (j : IRushLinkJson), ∃ d',
      d' ∈ rushDependencyNames project ∧ cfg.getProjectByName d' = none ∧
      linkProject cfg fs contents project j =
        .error (.configurationError d' project.packageName) := by
  intro fs j
  obtain ⟨d', hd', hq', herr⟩ := linkRushDependencies_err_of_unmatched hd hq
    (createLinkedPackage project.packageJson.name
      (some project.tempPackageJson.version) project.projectFolder) j
  refine ⟨d', hd', hq', ?_⟩
  rw [linkProject, linkProjectTree, herr]
  rfl

theorem linkProjectsLoop_err_of_always_err {cfg : RushConfiguration}
    {contents : JsonContents} {p : RushConfigurationProject}
    (herr : ∀ (fs : FileSystem) (j : IRushLinkJson), ∃ e,
      linkProject cfg fs contents p j = .error e) :
    ∀ {ps : List RushConfigurationProject}, p ∈ ps →
    ∀ (fs : FileSystem) (j : IRushLinkJson),
      (linkProjectsLoop cfg contents ps fs j).2.2.2.isSome := by
  intro ps
  induction ps with
  | nil => intro hp; simp at hp
  | cons x rest ih =>
    intro hp fs j
    rw [linkProjectsLoop]
    cases hE : linkProject cfg fs contents x j with
    | error e => simp
    | ok res =>
      obtain ⟨w, j'⟩ := res
      have hpx : p ∈ rest := by
        rcases List.mem_cons.mp hp with hp | hp
        · subst hp
          obtain ⟨e, he⟩ := herr fs j
          rw [he] at hE
          exact absurd hE (by simp)
        · exact hp
      simpa using ih hpx (applyWrites fs w) j'

/-! ## Claim theorems -/

/-- C1: for every local project and every internal dependency name `d` of its
staging manifest matching a known local project, linking creates a child node
at the project's `node_modules/d` whose symlink target is the matched project's
real folder, and appends `d` to the link manifest entry for the project; the
entry holds exactly the internal dependency names, in declaration order (and so
never a third-party name). -/
theorem claim1_internal_dependency_links {cfg : RushConfiguration}
    {fs : FileSystem} {contents : JsonContents}
    {project : RushConfigurationProject} {j j' : IRushLinkJson} {pkg : BasePackage}
    (h0 : getLocalLinks j project.packageName = none)
    (h : linkProjectTree cfg fs contents project j = .ok (pkg, j')) :
    getLocalLinks j' project.packageName =
      (if rushDependencyNames project = [] then none
       else some (rushDependencyNames project)) ∧
    ∀ d ∈ rushDependencyNames project, ∃ q, cfg.getProjectByName d = some q ∧
      ∃ c ∈ pkg.children, c.name = d ∧
        c.folderPath = project.projectFolder ++ [nodeModulesFolderName, d] ∧
        c.symlinkTargetFolderPath = some q.projectFolder := by
  rw [RushConfigurationProject.packageName] at h0 ⊢
  obtain ⟨hpkg, hj', hall, _, _, _⟩ := linkProjectTree_ok h
  constructor
  · rw [hj']
    by_cases hniL : rushDependencyNames project = []
    · rw [if_pos hniL, hniL, pushLocalLinks_nil]
      exact h0
    · rw [if_neg hniL,
        getLocalLinks_pushLocalLinks_self _ _ hniL]
      rw [h0]
      rfl
  · intro d hd
    have hsome := hall d hd
    cases hq : cfg.getProjectByName d with
    | none => rw [hq] at hsome; simp at hsome
    | some q =>
      refine ⟨q, rfl, rushChildNode cfg project.projectFolder d, ?_, ?_⟩
      · rw [hpkg, BasePackage.children_mk, projectChildren]
        exact List.mem_append.mpr (Or.inl (List.mem_map.mpr ⟨d, hd, rfl⟩))
      · rw [rushChildNode, hq]
        simp

/-- Witness for C1 at the concrete two-project configuration: linking `a`
yields the manifest entry `a ↦ ["b"]` and a child node `a/node_modules/b`
targeting `b`'s project folder. -/
theorem claim1_witness :
    getLocalLinks sampleJOut sampleProjectA.packageName =
      (if rushDependencyNames sampleProjectA = [] then none
       else some (rushDependencyNames sampleProjectA)) ∧
    ∀ d ∈ rushDependencyNames sampleProjectA, ∃ q,
      sampleConfig.getProjectByName d = some q ∧
      ∃ c ∈ samplePkgA.children, c.name = d ∧
        c.folderPath = sampleProjectA.projectFolder ++ [nodeModulesFolderName, d] ∧
        c.symlinkTargetFolderPath = some q.projectFolder :=
  @claim1_internal_dependency_links sampleConfig sampleFs [] sampleProjectA []
    sampleJOut samplePkgA (by rfl) (by rfl)

/-- C10: a project with no internal dependencies gets no link manifest entry
at all — its name is absent as a key rather than mapped to an empty list; an
entry appears exactly when the project has at least one internal dependency. -/
theorem claim10_entry_absent_without_internal {cfg : RushConfiguration}
    {fs : FileSystem} {contents : JsonContents}
    {project : RushConfigurationProject} {j j' : IRushLinkJson} {pkg : BasePackage}
    (h0 : getLocalLinks j project.packageName = none)
    (h : linkProjectTree cfg fs contents project j = .ok (pkg, j')) :
    (getLocalLinks j' project.packageName = none ↔
      rushDependencyNames project = []) ∧
    (rushDependencyNames project = [] → j' = j) := by
  rw [RushConfigurationProject.packageName] at h0 ⊢
  obtain ⟨_, hj', _, _, _, _⟩ := linkProjectTree_ok h
  have hempty : rushDependencyNames project = [] → j' = j := by
    intro hniL
    rw [hj', hniL, pushLocalLinks_nil]
  refine ⟨⟨?_, ?_⟩, hempty⟩
  · intro habs
    by_contra hniL
    rw [hj', getLocalLinks_pushLocalLinks_self _ _ hniL] at habs
    simp at habs
  · intro hniL
    rw [hempty hniL]
    exact h0

/-- Witness for C10: project `c1` declares no internal dependency, and after
linking it the manifest has no `c1` entry and is unchanged. -/
theorem claim10_witness :
    (getLocalLinks jOutC1 projC1.packageName = none ↔
      rushDependencyNames projC1 = []) ∧
    (rushDependencyNames projC1 = [] → jOutC1 = []) :=
  @claim10_entry_absent_without_internal cfg2 fs2 [] projC1 [] jOutC1 pkgC1
    (by rfl) (by rfl)

/-- C5: an internal dependency name that matches no known local project makes
the project's linking fail with the configuration error identifying a
dependency and the project; the failure is fatal (evaluation stops at the
throw, nothing retries it) and the run that contains such a project persists
no link manifest. -/
theorem claim5_unmatched_internal_dependency {cfg : RushConfiguration}
    {contents : JsonContents} {project : RushConfigurationProject} {d : String}
    (fs : FileSystem) (j : IRushLinkJson) (fs₀ : FileSystem)
    (hp : project ∈ cfg.projects)
    (hd : d ∈ rushDependencyNames project)
    (hq : cfg.getProjectByName d = none) :
    (∃ d', d' ∈ rushDependencyNames project ∧ cfg.getProjectByName d' = none ∧
      linkProject cfg fs contents project j =
        .error (.configurationError d' project.packageName)) ∧
    (linkProjects cfg contents fs₀).manifestWrites = [] := by
  constructor
  · exact linkProject_err_of_unmatched hd hq fs j
  · have herr : ∀ (fs' : FileSystem) (j' : IRushLinkJson), ∃ e,
        linkProject cfg fs' contents project j' = .error e := by
      intro fs' j'
      obtain ⟨d', _, _, he⟩ := linkProject_err_of_unmatched hd hq fs' j'
      exact ⟨_, he⟩
    have hsome := linkProjectsLoop_err_of_always_err herr hp fs₀ []
    rw [linkProjects]
    cases hE : (linkProjectsLoop cfg contents cfg.projects fs₀ []).2.2.2 with
    | none => rw [hE] at hsome; simp at hsome
    | some e =>
      simp only
      rw [hE]

/-- Witness for C5: `projGhost` declares internal dependency `ghost`, which
matches no project of `cfgGhost`; linking fails with the configuration error
and the run writes no manifest. -/
theorem claim5_witness :
    (∃ d', d' ∈ rushDependencyNames projGhost ∧
      cfgGhost.getProjectByName d' = none ∧
      linkProject cfgGhost [] [] projGhost [] =
        .error (.configurationError d' projGhost.packageName)) ∧
    (linkProjects cfgGhost [] []).manifestWrites = [] :=
  @claim5_unmatched_internal_dependency cfgGhost [] projGhost "ghost" [] [] []
    (by decide) (by decide) (by rfl)

/-- C4: for a regular dependency `d`, the flattened strategy throws exactly
when the backend's expected install location for `d` (under the project's
local installation folder) is missing or is not a symlink — and then the error
is one of the two backend-invariant errors; otherwise it creates a child node
whose symlink target is that location and raises no error for `d`. -/
theorem claim4_backend_invariant_violation {fs : FileSystem}
    {contents : JsonContents} {pli : FsPath} {lp : BasePackage} {d : String}
    (hnd : d ∉ lp.children.map BasePackage.name) :
    ((∃ e, linkRegularDependency fs contents pli lp d = .error e ∧
        (e = .missingInstalledDependency d pli ∨
         e = .dependencyNotASymlink d pli)) ↔
      ¬ ∃ t, fsLookup fs (pli ++ [d]) = some (.symlink t)) ∧
    (∀ t, fsLookup fs (pli ++ [d]) = some (.symlink t) →
      linkRegularDependency fs contents pli lp d =
        .ok (lp.pushChild
          (.mk d none (lp.folderPath ++ [nodeModulesFolderName, d])
            (some (pli ++ [d])) []))) := by
  have hok : ∀ t, fsLookup fs (pli ++ [d]) = some (.symlink t) →
      linkRegularDependency fs contents pli lp d =
        .ok (lp.pushChild
          (.mk d none (lp.folderPath ++ [nodeModulesFolderName, d])
            (some (pli ++ [d])) [])) := by
    intro t ht
    rw [linkRegularDependency_symlink ht, BasePackage.addChild]
    rw [if_neg (by rw [regularChildNode]; simpa using hnd)]
    rw [regularChildNode]
    simp [DEBUG]
  refine ⟨⟨?_, ?_⟩, hok⟩
  · rintro ⟨e, he, _⟩ ⟨t, ht⟩
    rw [hok t ht] at he
    exact absurd he (by simp)
  · intro hnot
    cases hl : fsLookup fs (pli ++ [d]) with
    | none =>
      exact ⟨_, linkRegularDependency_missing hl, Or.inl rfl⟩
    | some entry =>
      cases entry with
      | realDir =>
        exact ⟨_, linkRegularDependency_notSymlink hl, Or.inr rfl⟩
      | symlink t => exact absurd ⟨t, hl⟩ hnot

/-- Witness for C4 at a concrete filesystem holding a backend symlink at
`pli/good` and a plain directory at `pli/plain`, for a parent with no
children. -/
theorem claim4_witness :
    ((∃ e, linkRegularDependency
          [(["pli", "good"], .symlink ["store", "good"]),
           (["pli", "plain"], .realDir)] [] ["pli"]
          (.mk "p" none ["repo", "tools", "p"] none []) "good" = .error e ∧
        (e = .missingInstalledDependency "good" ["pli"] ∨
         e = .dependencyNotASymlink "good" ["pli"])) ↔
      ¬ ∃ t, fsLookup
          [(["pli", "good"], .symlink ["store", "good"]),
           (["pli", "plain"], .realDir)] (["pli"] ++ ["good"]) =
        some (.symlink t)) ∧
    (∀ t, fsLookup
          [(["pli", "good"], .symlink ["store", "good"]),
           (["pli", "plain"], .realDir)] (["pli"] ++ ["good"]) =
        some (.symlink t) →
      linkRegularDependency
          [(["pli", "good"], .symlink ["store", "good"]),
           (["pli", "plain"], .realDir)] [] ["pli"]
          (.mk "p" none ["repo", "tools", "p"] none []) "good" =
        .ok ((BasePackage.mk "p" none ["repo", "tools", "p"] none []).pushChild
          (.mk "good" none
            (["repo", "tools", "p"] ++ [nodeModulesFolderName, "good"])
            (some (["pli"] ++ ["good"])) []))) :=
  claim4_backend_invariant_violation (by decide)

/-- C8: every dependency node a successful flattened link creates is a direct
child of the project's root node at depth one, has its symlink target set and
an empty children collection, and the filesystem projection of such a node is
its single symlink write — its children are never walked. -/
theorem claim8_flattened_depth_one {cfg : RushConfiguration} {fs : FileSystem}
    {contents : JsonContents} {project : RushConfigurationProject}
    {j j' : IRushLinkJson} {pkg : BasePackage}
    (h : linkProjectTree cfg fs contents project j = .ok (pkg, j')) :
    pkg.symlinkTargetFolderPath = none ∧
    ∀ c ∈ pkg.children, ∃ t, c.symlinkTargetFolderPath = some t ∧
      c.children = [] ∧
      c.folderPath = pkg.folderPath ++ [nodeModulesFolderName, c.name] ∧
      symlinkWrites c = [(c.folderPath, .symlink t)] := by
  obtain ⟨hpkg, _, hall, _, _, _⟩ := linkProjectTree_ok h
  constructor
  · rw [hpkg]
    rfl
  · intro c hc
    rw [hpkg, BasePackage.children_mk] at hc
    obtain ⟨⟨t, ht⟩, hcc, hfp⟩ := projectChildren_shape hall c hc
    refine ⟨t, ht, hcc, ?_, ?_⟩
    · rw [hpkg, BasePackage.folderPath_mk]
      exact hfp
    · obtain ⟨n, v, fp, st, cs⟩ := c
      simp only [BasePackage.symlinkTargetFolderPath_mk] at ht
      subst ht
      rw [symlinkWrites_target]
      rfl

/-- Witness for C8: the tree linked for project `a` has a target-less root and
depth-one, target-set, childless dependency nodes. -/
theorem claim8_witness :
    samplePkgA.symlinkTargetFolderPath = none ∧
    ∀ c ∈ samplePkgA.children, ∃ t, c.symlinkTargetFolderPath = some t ∧
      c.children = [] ∧
      c.folderPath = samplePkgA.folderPath ++ [nodeModulesFolderName, c.name] ∧
      symlinkWrites c = [(c.folderPath, .symlink t)] :=
  @claim8_flattened_depth_one sampleConfig sampleFs [] sampleProjectA []
    sampleJOut samplePkgA (by rfl)

/-! ## With `DEBUG` off, dependency manifest contents are never consulted -/

theorem linkRegularDependency_contents {fs : FileSystem}
    {contents contents' : JsonContents} {pli : FsPath} {lp : BasePackage}
    {d : String} :
    linkRegularDependency fs contents pli lp d =
      linkRegularDependency fs contents' pli lp d := by
  rw [linkRegularDependency, linkRegularDependency]
  simp [DEBUG]

theorem linkRegularDependencies_contents {fs : FileSystem}
    {contents contents' : JsonContents} {pli : FsPath} :
    ∀ {names : List String} {lp : BasePackage},
      linkRegularDependencies fs contents pli names lp =
        linkRegularDependencies fs contents' pli names lp := by
  intro names
  induction names with
  | nil => intro lp; rfl
  | cons d rest ih =>
    intro lp
    rw [linkRegularDependencies, linkRegularDependencies,
      linkRegularDependency_contents]
    cases linkRegularDependency fs contents' pli lp d with
    | error e => rfl
    | ok lp1 =>
      simp only [bind, Except.bind]
      exact ih

theorem linkProject_contents {cfg : RushConfiguration} {fs : FileSystem}
    {contents contents' : JsonContents} {project : RushConfigurationProject}
    {j : IRushLinkJson} :
    linkProject cfg fs contents project j = linkProject cfg fs contents' project j := by
  have ht : linkProjectTree cfg fs contents project j =
      linkProjectTree cfg fs contents' project j := by
    rw [linkProjectTree, linkProjectTree]
    cases linkRushDependencies cfg project (rushDependencyNames project)
        (createLinkedPackage project.packageJson.name
          (some project.tempPackageJson.version) project.projectFolder) j with
    | error e => rfl
    | ok res =>
      obtain ⟨lp1, j1⟩ := res
      simp only [bind, Except.bind]
      rw [linkRegularDependencies_contents]
  rw [linkProject, linkProject, ht]

theorem linkProjectsLoop_contents {cfg : RushConfiguration}
    {contents contents' : JsonContents} :
    ∀ (ps : List RushConfigurationProject) (fs : FileSystem) (j : IRushLinkJson),
      linkProjectsLoop cfg contents ps fs j = linkProjectsLoop cfg contents' ps fs j := by
  intro ps
  induction ps with
  | nil => intro fs j; rfl
  | cons p rest ih =>
    intro fs j
    rw [linkProjectsLoop, linkProjectsLoop, linkProject_contents]
    cases linkProject cfg fs contents' p j with
    | error e => rfl
    | ok res =>
      obtain ⟨w, j'⟩ := res
      simp only
      rw [ih]

/-- C9: with the diagnostic flag at its default `false`, linking never reads a
regular dependency's own `package.json` (the whole run is independent of every
parsed manifest content), and each regular dependency node records `none` —
the embedding of `undefined` — as its version. -/
theorem claim9_debug_off_no_manifest_reads :
    DEBUG = false ∧
    (∀ (cfg : RushConfiguration) (contents contents' : JsonContents)
        (fs : FileSystem),
      linkProjects cfg contents fs = linkProjects cfg contents' fs) ∧
    (∀ (cfg : RushConfiguration) (fs : FileSystem) (contents : JsonContents)
        (project : RushConfigurationProject) (j j' : IRushLinkJson)
        (pkg : BasePackage),
      linkProjectTree cfg fs contents project j = .ok (pkg, j') →
      ∀ c ∈ pkg.children.drop (rushDependencyNames project).length,
        c.version = none) := by
  refine ⟨rfl, ?_, ?_⟩
  · intro cfg contents contents' fs
    rw [linkProjects, linkProjects, linkProjectsLoop_contents cfg.projects fs]
  · intro cfg fs contents project j j' pkg h c hc
    obtain ⟨hpkg, _, _, _, _, _⟩ := linkProjectTree_ok h
    rw [hpkg, BasePackage.children_mk, projectChildren] at hc
    rw [show (rushDependencyNames project).length =
        ((rushDependencyNames project).map
          (rushChildNode cfg project.projectFolder)).length by simp,
      List.drop_left] at hc
    obtain ⟨d, _, hcd⟩ := List.mem_map.mp hc
    rw [← hcd, regularChildNode]
    simp [DEBUG]

/-- Witness for C9: two runs over `sampleConfig` differing only in available
manifest contents coincide, and project `a`'s regular dependency node records
no version. -/
theorem claim9_witness :
    DEBUG = false ∧
    linkProjects sampleConfig [] sampleFs =
      linkProjects sampleConfig
        [(storePath ++ [packageJsonFilename],
          { name := "lodash", version := "9.9.9" })] sampleFs ∧
    ∀ c ∈ samplePkgA.children.drop (rushDependencyNames sampleProjectA).length,
      c.version = none :=
  ⟨claim9_debug_off_no_manifest_reads.1,
   claim9_debug_off_no_manifest_reads.2.1 sampleConfig _ _ _,
   claim9_debug_off_no_manifest_reads.2.2 sampleConfig sampleFs [] sampleProjectA
     [] sampleJOut samplePkgA (by rfl)⟩

/-! ## A failing run stops after a successfully linked prefix -/

theorem linkProjectsLoop_error_prefix {cfg : RushConfiguration}
    {contents : JsonContents} :
    ∀ (ps : List RushConfigurationProject) (fs : FileSystem) (j : IRushLinkJson),
      (linkProjectsLoop cfg contents ps fs j).2.2.2.isSome →
      ∃ k, k ≤ ps.length ∧
        (linkProjectsLoop cfg contents (ps.take k) fs j).2.2.2 = none ∧
        (linkProjectsLoop cfg contents (ps.take k) fs j).1 =
          (linkProjectsLoop cfg contents ps fs j).1 := by
  intro ps
  induction ps with
  | nil => intro fs j h; simp [linkProjectsLoop] at h
  | cons p rest ih =>
    intro fs j h
    cases hE : linkProject cfg fs contents p j with
    | error e =>
      refine ⟨0, Nat.zero_le _, rfl, ?_⟩
      rw [List.take_zero, linkProjectsLoop, linkProjectsLoop, hE]
    | ok res =>
      obtain ⟨w, j'⟩ := res
      rw [linkProjectsLoop, hE] at h
      simp only at h
      obtain ⟨k, hk, hnone, hfs⟩ := ih (applyWrites fs w) j' h
      refine ⟨k + 1, by simpa using Nat.succ_le_succ hk, ?_, ?_⟩
      · rw [List.take_succ_cons, linkProjectsLoop, hE]
        simpa using hnone
      · rw [List.take_succ_cons, linkProjectsLoop, linkProjectsLoop, hE]
        simpa using hfs

/-- C3: the link manifest is written exactly once, and only when every project
linked without error; if any project throws, the run surfaces the error, no
manifest is written (any previous one stays in place), and the filesystem is
exactly the one produced by the successfully linked prefix — earlier projects'
symlinks are left as they are. -/
theorem claim3_manifest_write_discipline (cfg : RushConfiguration)
    (contents : JsonContents) (fs₀ : FileSystem) :
    ((linkProjects cfg contents fs₀).error = none ↔
      ∃ m, (linkProjects cfg contents fs₀).manifestWrites = [m]) ∧
    (∀ e, (linkProjects cfg contents fs₀).error = some e →
      (linkProjects cfg contents fs₀).manifestWrites = [] ∧
      ∃ k, k ≤ cfg.projects.length ∧
        (linkProjectsLoop cfg contents (cfg.projects.take k) fs₀ []).2.2.2 = none ∧
        (linkProjects cfg contents fs₀).fs =
          (linkProjectsLoop cfg contents (cfg.projects.take k) fs₀ []).1) := by
  rcases hL : linkProjectsLoop cfg contents cfg.projects fs₀ [] with ⟨fs', tr, j1, err⟩
  have hrun : linkProjects cfg contents fs₀ =
      (match err with
       | none => { fs := fs', manifestWrites := [j1], error := none }
       | some e => { fs := fs', manifestWrites := [], error := some e }) := by
    simp only [linkProjects, hL]
    cases err <;> rfl
  cases err with
  | none =>
    refine ⟨⟨fun _ => ⟨j1, by rw [hrun]⟩, fun _ => by rw [hrun]⟩, ?_⟩
    intro e he
    rw [hrun] at he
    exact absurd he (by simp)
  | some e₀ =>
    constructor
    · constructor
      · intro hn
        rw [hrun] at hn
        exact absurd hn (by simp)
      · rintro ⟨m, hm⟩
        rw [hrun] at hm
        exact absurd hm (by simp)
    · intro e _
      refine ⟨by rw [hrun], ?_⟩
      obtain ⟨k, hk, hnone, hpre⟩ :=
        linkProjectsLoop_error_prefix cfg.projects fs₀ [] (by rw [hL]; rfl)
      refine ⟨k, hk, hnone, ?_⟩
      rw [hrun]
      show fs' = (linkProjectsLoop cfg contents (cfg.projects.take k) fs₀ []).1
      rw [hpre, hL]

/-- Witness for C3: the successful run over `sampleConfig` writes exactly one
manifest, and the failing run over `cfgGhost` writes none while its filesystem
equals the empty successfully-linked prefix's. -/
theorem claim3_witness :
    (∃ m, (linkProjects sampleConfig [] sampleFs).manifestWrites = [m]) ∧
    ((linkProjects cfgGhost [] []).manifestWrites = [] ∧
      ∃ k, k ≤ cfgGhost.projects.length ∧
        (linkProjectsLoop cfgGhost [] (cfgGhost.projects.take k) [] []).2.2.2 =
          none ∧
        (linkProjects cfgGhost [] []).fs =
          (linkProjectsLoop cfgGhost [] (cfgGhost.projects.take k) [] []).1) :=
  ⟨(claim3_manifest_write_discipline sampleConfig [] sampleFs).1.mp (by decide),
   (claim3_manifest_write_discipline cfgGhost [] []).2
     (.configurationError "ghost" "g") (by decide)⟩

/-- C6: on a sanely laid-out project set (no write location is also a read
location, i.e. project folders do not live inside the backend's installation
store), running the engine a second time on the filesystem the first run
produced yields the identical outcome: same filesystem, same manifest writes,
same error — the run is idempotent. -/
theorem claim6_second_run_identical {cfg : RushConfiguration}
    {contents : JsonContents} (fs₀ : FileSystem) (HW : WritesAvoidReads cfg) :
    linkProjects cfg contents ((linkProjects cfg contents fs₀).fs) =
      linkProjects cfg contents fs₀ := by
  rcases hL : linkProjectsLoop cfg contents cfg.projects fs₀ [] with ⟨fs₁, tr, j₁, err⟩
  have hfs₁ : fs₁ = applyWrites fs₀ tr := by
    have h := @linkProjectsLoop_fs cfg contents cfg.projects fs₀ []
    rw [hL] at h
    exact h
  have hrfs : (linkProjects cfg contents fs₀).fs = fs₁ := by
    simp only [linkProjects, hL]
    cases err <;> rfl
  have htr : ∀ q ∈ allReadPaths cfg, fsLookup fs₁ q = fsLookup fs₀ q := by
    intro q hq
    rw [hfs₁]
    apply fsLookup_applyWrites_not_mem
    intro hc
    have hmem := @linkProjectsLoop_trace_paths cfg contents
      cfg.projects (fun _ h => h) fs₀ [] q (by rw [hL]; exact hc)
    obtain ⟨p, hp, hwp⟩ := hmem
    exact HW p hp q hwp hq
  rcases hL2 : linkProjectsLoop cfg contents cfg.projects fs₁ [] with ⟨fs₂, tr₂, j₂, err₂⟩
  have htl : (tr₂, j₂, err₂) = (tr, j₁, err) := by
    have h := @linkProjectsLoop_frame cfg contents HW cfg.projects
      (fun _ h => h) fs₁ fs₀ [] htr
    rw [hL, hL2] at h
    exact h
  have htr₂ : tr₂ = tr := congrArg Prod.fst htl
  have hj₂ : j₂ = j₁ := congrArg (fun x => x.2.1) htl
  have herr₂ : err₂ = err := congrArg (fun x => x.2.2) htl
  have hfs₂ : fs₂ = fs₁ := by
    have h := @linkProjectsLoop_fs cfg contents cfg.projects fs₁ []
    rw [hL2] at h
    have h' : fs₂ = applyWrites fs₁ tr₂ := h
    rw [h', htr₂, hfs₁, applyWrites_idem]
  rw [hrfs]
  simp only [linkProjects, hL, hL2]
  subst htr₂
  subst hj₂
  subst herr₂
  subst hfs₂
  rfl

/-- Witness for C6: the two-project configuration is sanely laid out, and the
second run over it reproduces the first run's result exactly. -/
theorem claim6_witness :
    linkProjects sampleConfig [] ((linkProjects sampleConfig [] sampleFs).fs) =
      linkProjects sampleConfig [] sampleFs :=
  claim6_second_run_identical sampleFs (by decide)

/-- C7 refuted as stated: the internal-dependency path of `_linkProject`
appends the new child with `children.push`, without any duplicate check — with
a parent that already has a child named `b`, adding the internal dependency
`b` succeeds and leaves two children named `b`, instead of failing fast. -/
theorem claim7_counterexample :
    "b" ∈ dupParent.children.map BasePackage.name ∧
    linkRushDependency sampleConfig sampleProjectA dupParent [] "b" =
      .ok (dupParent.pushChild
            (.mk "b" (some "1.0.0")
              (["repo", "tools", "a"] ++ [nodeModulesFolderName, "b"])
              (some ["repo", "tools", "b"]) []),
          [("a", ["b"])]) ∧
    (dupParent.pushChild
        (.mk "b" (some "1.0.0")
          (["repo", "tools", "a"] ++ [nodeModulesFolderName, "b"])
          (some ["repo", "tools", "b"]) [])).children.map BasePackage.name =
      ["b", "b"] :=
  ⟨by decide, by rfl, by decide⟩

/-- C7 (amended): `addChild` fails fast exactly on a duplicate child name,
with an error naming the parent and the duplicate; during linking this check
guards ordinary-dependency children, which go through `addChild`, while
internal-dependency children are appended directly and succeed without a
duplicate check whenever the name matches a local project. -/
theorem claim7_amended_duplicate_check :
    (∀ parent child : BasePackage,
      child.name ∈ parent.children.map BasePackage.name →
        parent.addChild child =
          .error (.duplicateChild parent.name child.name)) ∧
    (∀ parent child : BasePackage,
      child.name ∉ parent.children.map BasePackage.name →
        parent.addChild child = .ok (parent.pushChild child)) ∧
    (∀ (fs : FileSystem) (contents : JsonContents) (pli : FsPath)
        (lp : BasePackage) (d : String) (t : FsPath),
      fsLookup fs (pli ++ [d]) = some (.symlink t) →
      d ∈ lp.children.map BasePackage.name →
      linkRegularDependency fs contents pli lp d =
        .error (.duplicateChild lp.name d)) ∧
    (∀ (cfg : RushConfiguration) (project : RushConfigurationProject)
        (lp : BasePackage) (j : IRushLinkJson) (d : String)
        (q : RushConfigurationProject),
      cfg.getProjectByName d = some q →
      ∃ lp' j', linkRushDependency cfg project lp j d = .ok (lp', j')) := by
  refine ⟨?_, ?_, ?_, ?_⟩
  · intro parent child hdup
    rw [BasePackage.addChild, if_pos hdup]
  · intro parent child hdup
    rw [BasePackage.addChild, if_neg hdup]
  · intro fs contents pli lp d t ht hdup
    rw [linkRegularDependency_symlink ht, BasePackage.addChild,
      if_pos (by rw [regularChildNode]; simpa using hdup)]
    rfl
  · intro cfg project lp j d q hq
    exact ⟨_, _, linkRushDependency_ok hq⟩

/-- Witness for the amended C7: `addChild` rejects the duplicate `b`, the
ordinary-dependency path rejects a duplicate `b`, and the internal-dependency
path accepts it. -/
theorem claim7_witness :
    dupParent.addChild (.mk "b" none [] none []) =
      .error (.duplicateChild "a" "b") ∧
    linkRegularDependency [(["pli", "b"], .symlink storePath)] [] ["pli"]
        dupParent "b" = .error (.duplicateChild "a" "b") ∧
    (∃ lp' j',
      linkRushDependency sampleConfig sampleProjectA dupParent [] "b" =
        .ok (lp', j')) :=
  ⟨claim7_amended_duplicate_check.1 dupParent (.mk "b" none [] none []) (by decide),
   claim7_amended_duplicate_check.2.2.1 [(["pli", "b"], .symlink storePath)] []
     ["pli"] dupParent "b" storePath (by rfl) (by decide),
   claim7_amended_duplicate_check.2.2.2 sampleConfig sampleProjectA dupParent []
     "b" sampleProjectB (by rfl)⟩

/-- Unfold one resolution hop at a known symlink entry. -/
theorem resolveOneHop_symlink {fs : FileSystem} {p t : FsPath}
    (h : fsLookup fs p = some (.symlink t)) : resolveOneHop fs p = some t := by
  unfold resolveOneHop
  rw [h]

/-! ## Locating a dependency's symlink write in the final filesystem -/

theorem fsLookup_applyWrites_of_mem {q : FsPath} {e : FsEntry} :
    ∀ {ws : List (FsPath × FsEntry)} (fs : FileSystem), (q, e) ∈ ws →
      (∀ e', (q, e') ∈ ws → e' = e) →
      fsLookup (applyWrites fs ws) q = some e := by
  intro ws
  induction ws with
  | nil => intro fs hmem; simp at hmem
  | cons kv rest ih =>
    intro fs hmem huniq
    obtain ⟨r, e₀⟩ := kv
    by_cases hr : q ∈ rest.map Prod.fst
    · obtain ⟨⟨q', e₁⟩, hmem₁, hq₁⟩ := List.mem_map.mp hr
      simp only at hq₁
      subst hq₁
      have he₁ : e₁ = e := huniq e₁ (List.mem_cons_of_mem _ hmem₁)
      subst he₁
      rw [applyWrites_cons]
      exact ih _ hmem₁ (fun e' he' => huniq e' (List.mem_cons_of_mem _ he'))
    · have hhead : r = q ∧ e₀ = e := by
        rcases List.mem_cons.mp hmem with h | h
        · have h' := Prod.mk.injEq .. ▸ h.symm
          exact ⟨h'.1, h'.2⟩
        · exact absurd (List.mem_map.mpr ⟨(q, e), h, rfl⟩) hr
      obtain ⟨hrq, he₀⟩ := hhead
      subst hrq; subst he₀
      rw [applyWrites_cons, fsLookup_applyWrites_not_mem _ _ hr,
        fsLookup_insert_self]

/-- The regular dependency `d` of a successfully linked project contributes the
write `project/node_modules/d ↦ symlink (backend location of d)`. -/
theorem linkProject_regular_write_mem {cfg : RushConfiguration} {fs : FileSystem}
    {contents : JsonContents} {project : RushConfigurationProject}
    {j j' : IRushLinkJson} {w : List (FsPath × FsEntry)} {d : String}
    (h : linkProject cfg fs contents project j = .ok (w, j'))
    (hd : d ∈ regularDependencyNames project) :
    (project.projectFolder ++ [nodeModulesFolderName, d],
      FsEntry.symlink (pathToLocalInstallation cfg project ++ [d])) ∈ w := by
  obtain ⟨hw, _, _⟩ := linkProject_ok h
  rw [hw]
  refine List.mem_append.mpr (Or.inl (List.mem_append.mpr (Or.inr ?_)))
  refine List.mem_map.mpr
    ⟨regularChildNode contents (pathToLocalInstallation cfg project)
      project.projectFolder d, ?_, rfl⟩
  rw [projectChildren]
  exact List.mem_append.mpr (Or.inr (List.mem_map.mpr ⟨d, hd, rfl⟩))

/-- That write is the only one a successful link performs at that path, as
long as the declared dependency names are distinct and `d` is not the special
`.bin` name. -/
theorem linkProject_regular_write_unique {cfg : RushConfiguration}
    {fs : FileSystem} {contents : JsonContents}
    {project : RushConfigurationProject} {j j' : IRushLinkJson}
    {w : List (FsPath × FsEntry)} {d : String}
    (h : linkProject cfg fs contents project j = .ok (w, j'))
    (hd : d ∈ regularDependencyNames project) (hbin : d ≠ ".bin")
    (hnd : (rushDependencyNames project ++ regularDependencyNames project).Nodup) :
    ∀ e, (project.projectFolder ++ [nodeModulesFolderName, d], e) ∈ w →
      e = FsEntry.symlink (pathToLocalInstallation cfg project ++ [d]) := by
  obtain ⟨hw, _, hall⟩ := linkProject_ok h
  intro e he
  rw [hw] at he
  rcases List.mem_append.mp he with he | he
  · rcases List.mem_append.mp he with he | he
    · by_cases hni : (projectChildren cfg contents project).isEmpty = true
      · rw [if_pos hni] at he
        simp at he
      · rw [if_neg hni] at he
        have heq := (List.mem_singleton.mp he)
        have : project.projectFolder ++ [nodeModulesFolderName, d] =
            project.projectFolder ++ [nodeModulesFolderName] := congrArg Prod.fst heq
        have hlen := congrArg List.length this
        simp at hlen
    · obtain ⟨c, hc, hcq⟩ := List.mem_map.mp he
      obtain ⟨⟨t, ht⟩, _, hfp⟩ := projectChildren_shape hall c hc
      have hqe := hcq
      have hq : c.folderPath = project.projectFolder ++ [nodeModulesFolderName, d] :=
        congrArg Prod.fst hcq
      have hcname : c.name = d := by
        rw [hfp] at hq
        have := List.append_cancel_left hq
        simpa using this
      rw [projectChildren] at hc
      rcases List.mem_append.mp hc with hc | hc
      · obtain ⟨d', hd', hcd⟩ := List.mem_map.mp hc
        have : d' = d := by rw [← hcname, ← hcd, name_rushChildNode]
        subst this
        exact absurd hd'
          ((List.disjoint_of_nodup_append hnd) · hd)
      · obtain ⟨d', hd', hcd⟩ := List.mem_map.mp hc
        have hd'd : d' = d := by
          rw [← hcname, ← hcd]
          rfl
        subst hd'd
        have he' : e = FsEntry.symlink (c.symlinkTargetFolderPath.getD []) :=
          (congrArg Prod.snd hcq).symm
        rw [he', ← hcd, regularChildNode]
        rfl
  · by_cases hbin' : existsSync fs (commonBinFolder cfg) = true
    · rw [if_pos hbin'] at he
      have heq := List.mem_singleton.mp he
      have : project.projectFolder ++ [nodeModulesFolderName, d] =
          project.projectFolder ++ [nodeModulesFolderName, ".bin"] :=
        congrArg Prod.fst heq
      have := List.append_cancel_left this
      simp at this
      exact absurd this hbin
    · rw [if_neg hbin'] at he
      simp at he

/-- C2 refuted as stated: two projects `c1` and `c2` both depend on `lodash`
at the same resolved version (the backend's symlinks for both resolve to one
store folder), yet after linking, one symlink hop from each project's
`node_modules/lodash` lands on two different locations — the backend's
per-project symlinks — and that landing point is itself a symlink, so
resolution does require a second hop. -/
theorem claim2_counterexample :
    (linkProjects cfg2 [] fs2).error = none ∧
    resolveOneHop (linkProjects cfg2 [] fs2).fs
        (projC1.projectFolder ++ [nodeModulesFolderName, "lodash"]) ≠
      resolveOneHop (linkProjects cfg2 [] fs2).fs
        (projC2.projectFolder ++ [nodeModulesFolderName, "lodash"]) ∧
    (∃ q, resolveOneHop (linkProjects cfg2 [] fs2).fs
        (projC1.projectFolder ++ [nodeModulesFolderName, "lodash"]) = some q ∧
      isSymbolicLink (linkProjects cfg2 [] fs2).fs q = true) :=
  ⟨by decide, by decide,
   ⟨pathToLocalInstallation cfg2 projC1 ++ ["lodash"], by decide, by decide⟩⟩

/-- C2 (amended): the symlink created for a regular dependency `d` targets the
backend's own per-project symlink at the backend's expected install location —
not that symlink's target — so one hop lands on a per-project location, and
full resolution takes a second hop; when the backend's symlinks for `d`
resolve to one shared target `T` (one physical copy per resolved version),
every project depending on `(d, V)` reaches the same physical location `T`
after exactly two hops. -/
theorem claim2_amended_two_hop_convergence {cfg : RushConfiguration}
    {contents : JsonContents} {fs : FileSystem}
    {p₁ p₂ : RushConfigurationProject} {j₁ j₂ j₁' j₂' : IRushLinkJson}
    {w₁ w₂ : List (FsPath × FsEntry)} {d : String} {T : FsPath}
    (h₁ : linkProject cfg fs contents p₁ j₁ = .ok (w₁, j₁'))
    (h₂ : linkProject cfg fs contents p₂ j₂ = .ok (w₂, j₂'))
    (hd₁ : d ∈ regularDependencyNames p₁) (hd₂ : d ∈ regularDependencyNames p₂)
    (hbin : d ≠ ".bin")
    (hnd₁ : (rushDependencyNames p₁ ++ regularDependencyNames p₁).Nodup)
    (hnd₂ : (rushDependencyNames p₂ ++ regularDependencyNames p₂).Nodup)
    (hT₁ : fsLookup fs (pathToLocalInstallation cfg p₁ ++ [d]) =
      some (.symlink T))
    (hT₂ : fsLookup fs (pathToLocalInstallation cfg p₂ ++ [d]) =
      some (.symlink T))
    (hc₁ : (p₁.projectFolder ++ [nodeModulesFolderName, d]) ∉ w₂.map Prod.fst)
    (hb₁ : (pathToLocalInstallation cfg p₁ ++ [d]) ∉ (w₁ ++ w₂).map Prod.fst)
    (hb₂ : (pathToLocalInstallation cfg p₂ ++ [d]) ∉ (w₁ ++ w₂).map Prod.fst) :
    resolveOneHop (applyWrites fs (w₁ ++ w₂))
        (p₁.projectFolder ++ [nodeModulesFolderName, d]) =
      some (pathToLocalInstallation cfg p₁ ++ [d]) ∧
    resolveTwoHops (applyWrites fs (w₁ ++ w₂))
        (p₁.projectFolder ++ [nodeModulesFolderName, d]) = some T ∧
    resolveTwoHops (applyWrites fs (w₁ ++ w₂))
        (p₂.projectFolder ++ [nodeModulesFolderName, d]) = some T := by
  have hlk₁ : fsLookup (applyWrites fs (w₁ ++ w₂))
      (p₁.projectFolder ++ [nodeModulesFolderName, d]) =
      some (.symlink (pathToLocalInstallation cfg p₁ ++ [d])) := by
    rw [applyWrites_append, fsLookup_applyWrites_not_mem _ _ hc₁]
    exact fsLookup_applyWrites_of_mem fs (linkProject_regular_write_mem h₁ hd₁)
      (linkProject_regular_write_unique h₁ hd₁ hbin hnd₁)
  have hlk₂ : fsLookup (applyWrites fs (w₁ ++ w₂))
      (p₂.projectFolder ++ [nodeModulesFolderName, d]) =
      some (.symlink (pathToLocalInstallation cfg p₂ ++ [d])) := by
    rw [applyWrites_append]
    exact fsLookup_applyWrites_of_mem _ (linkProject_regular_write_mem h₂ hd₂)
      (linkProject_regular_write_unique h₂ hd₂ hbin hnd₂)
  have hback₁ : fsLookup (applyWrites fs (w₁ ++ w₂))
      (pathToLocalInstallation cfg p₁ ++ [d]) = some (.symlink T) := by
    rw [fsLookup_applyWrites_not_mem _ _ hb₁]
    exact hT₁
  have hback₂ : fsLookup (applyWrites fs (w₁ ++ w₂))
      (pathToLocalInstallation cfg p₂ ++ [d]) = some (.symlink T) := by
    rw [fsLookup_applyWrites_not_mem _ _ hb₂]
    exact hT₂
  refine ⟨resolveOneHop_symlink hlk₁, ?_, ?_⟩
  · rw [resolveTwoHops, resolveOneHop_symlink hlk₁, Option.some_bind]
    exact resolveOneHop_symlink hback₁
  · rw [resolveTwoHops, resolveOneHop_symlink hlk₂, Option.some_bind]
    exact resolveOneHop_symlink hback₂

/-- Witness for the amended C2 at the concrete two-project configuration:
after both projects' writes, each `node_modules/lodash` link reaches the
backend's per-project symlink in one hop and the shared store folder in two. -/
theorem claim2_witness :
    resolveOneHop (applyWrites fs2 (wC1 ++ wC2))
        (projC1.projectFolder ++ [nodeModulesFolderName, "lodash"]) =
      some (pathToLocalInstallation cfg2 projC1 ++ ["lodash"]) ∧
    resolveTwoHops (applyWrites fs2 (wC1 ++ wC2))
        (projC1.projectFolder ++ [nodeModulesFolderName, "lodash"]) =
      some storePath ∧
    resolveTwoHops (applyWrites fs2 (wC1 ++ wC2))
        (projC2.projectFolder ++ [nodeModulesFolderName, "lodash"]) =
      some storePath :=
  @claim2_amended_two_hop_convergence cfg2 [] fs2 projC1 projC2 [] [] [] []
    wC1 wC2 "lodash" storePath
    (by rfl) (by rfl) (by decide) (by decide) (by decide) (by decide) (by decide)
    (by rfl) (by rfl) (by decide) (by decide) (by decide)

end PnpmLink
